import Mathlib

/-!
Formal model of the `mtapy` MTA (Mutual Transmission Alliance) protocol
implementation, and proofs about its wire codec, crypto round-trips and the
sans-io sender/receiver state machines.

Sources embedded here:
- `src/protocol.py` — `WSMessage.serialize` / `WSMessage.parse` / `make_ack` /
  `make_status` / `make_version_negotiation` / `make_send_request` (the same
  module is imported as `.protocol` by the `src/mtapy` package);
- `src/models.py` — `SendRequest` / `TransferStatus` dictionary codecs;
- `src/constants.py` — protocol constants;
- `src/crypto.py` and `src/src/mtapy/crypto.py` — the two
  `DefaultSessionCipher` implementations (single-key AES-128-CTR, and the
  multi-candidate variant);
- `src/src/mtapy/receiver.py` — `ReceiverProtocol`;
- `src/src/mtapy/sender.py` — `SenderProtocol`.

Modelling conventions:
- Python byte strings are `List Nat` with every element < 256.
- Python `str` is Lean `String`; `re`'s `\w` and `\d` classes and
  `str.lower()` are modelled over ASCII (the protocol frames are ASCII).
- JSON values are the inductive `Json` below; numeric literals are kept as
  their source text (`Json.num lit`), so no floating point is computed.
  A decoded JSON `null` and Python's `None` are both `Json.null`, which
  matches the Python code: `json.loads` maps `null` to `None`, and
  `dict.get` of a missing key returns `None`.
- Python functions that can raise are modelled as `Except PyError`;
  a generator that raises before yielding produces `.error`.
- The AES block cipher of the external `cryptography` library is an
  abstract parameter `blockFn`; CTR mode, base64 and UTF-8 are modelled
  concretely.
-/

/-- Python exception kinds that the modelled code paths can raise. -/
inductive PyError where
  | typeError
  | attributeError
  | stopIteration
  | valueError
  | indexError
deriving DecidableEq, Repr

/-- ASCII model of Python's `str.lower()` (`String.toLower` of core Lean is
identical on ASCII but is not kernel-reducible). -/
def strLower (s : String) : String := ⟨s.data.map Char.toLower⟩

/-- ASCII model of the regex class `\w` (Python also matches non-ASCII word
characters, which never occur in this protocol's frames). -/
def isWordChar (c : Char) : Bool := c.isAlpha || c.isDigit || c = '_'

/-- The decimal digits of `n`, most significant first; `fuel`-driven model of
Python's `str(int)`. -/
def natToCharsAux : Nat → Nat → List Char
  | 0, _ => []
  | f + 1, n =>
    if n < 10 then [Nat.digitChar n]
    else natToCharsAux f (n / 10) ++ [Nat.digitChar (n % 10)]

def natToChars (n : Nat) : List Char := natToCharsAux (n + 1) n

/-- Numeric value of a run of decimal digits, as computed by Python's
`int(...)` on a `\d+` match. -/
def digitsValFrom (acc : Nat) (l : List Char) : Nat :=
  l.foldl (fun a c => a * 10 + (c.toNat - 48)) acc

def digitsVal (l : List Char) : Nat := digitsValFrom 0 l

theorem digitsValFrom_append (acc : Nat) (a b : List Char) :
    digitsValFrom acc (a ++ b) = digitsValFrom (digitsValFrom acc a) b := by
  simp [digitsValFrom, List.foldl_append]

theorem digitChar_isDigit {n : Nat} (h : n < 10) : (Nat.digitChar n).isDigit = true := by
  interval_cases n <;> decide

theorem digitChar_val {n : Nat} (h : n < 10) : (Nat.digitChar n).toNat - 48 = n := by
  interval_cases n <;> decide

theorem natToCharsAux_spec : ∀ f n, n < f →
    natToCharsAux f n ≠ [] ∧ (∀ c ∈ natToCharsAux f n, c.isDigit) ∧
      ∀ acc, digitsValFrom acc (natToCharsAux f n) =
        acc * 10 ^ (natToCharsAux f n).length + n := by
  intro f
  induction f with
  | zero => omega
  | succ f ih =>
    intro n hn
    by_cases h10 : n < 10
    · refine ⟨by simp [natToCharsAux, h10], ?_, ?_⟩
      · intro c hc
        simp only [natToCharsAux, h10, if_true, List.mem_singleton] at hc
        subst hc; exact digitChar_isDigit h10
      · intro acc
        simp [natToCharsAux, h10, digitsValFrom, digitChar_val h10]
    · have hdiv : n / 10 < f := by
        have h1 : n / 10 < n := Nat.div_lt_self (by omega) (by omega)
        omega
      obtain ⟨hne, hdig, hval⟩ := ih (n / 10) hdiv
      have heq : natToCharsAux (f + 1) n =
          natToCharsAux f (n / 10) ++ [Nat.digitChar (n % 10)] := by
        simp [natToCharsAux, h10]
      refine ⟨by simp [heq], ?_, ?_⟩
      · intro c hc
        rw [heq] at hc
        rcases List.mem_append.1 hc with h | h
        · exact hdig c h
        · simp only [List.mem_singleton] at h
          subst h; exact digitChar_isDigit (Nat.mod_lt _ (by omega))
      · intro acc
        rw [heq, digitsValFrom_append, hval acc]
        simp only [List.length_append, List.length_singleton]
        have hm : (Nat.digitChar (n % 10)).toNat - 48 = n % 10 :=
          digitChar_val (Nat.mod_lt _ (by omega))
        simp only [digitsValFrom, List.foldl_cons, List.foldl_nil, hm]
        have : 10 * (n / 10) + n % 10 = n := Nat.div_add_mod n 10
        rw [pow_succ]
        ring_nf
        omega

theorem natToChars_ne_nil (n : Nat) : natToChars n ≠ [] :=
  (natToCharsAux_spec (n + 1) n (by omega)).1

theorem natToChars_digits (n : Nat) : ∀ c ∈ natToChars n, c.isDigit :=
  (natToCharsAux_spec (n + 1) n (by omega)).2.1

theorem digitsVal_natToChars (n : Nat) : digitsVal (natToChars n) = n := by
  have h := ((natToCharsAux_spec (n + 1) n (by omega)).2.2) 0
  simpa [digitsVal, natToChars] using h

/-- Take the longest prefix satisfying `p`; the splitting lemmas below are
the "maximal munch" facts used to run the regex model on known inputs. -/
theorem takeWhile_append_of (p : Char → Bool) (a b : List Char)
    (ha : ∀ c ∈ a, p c)
    (hb : b = [] ∨ ∃ c cs, b = c :: cs ∧ p c = false) :
    (a ++ b).takeWhile p = a := by
  induction a with
  | nil =>
    rcases hb with rfl | ⟨c, cs, rfl, hc⟩
    · rfl
    · simp [List.takeWhile, hc]
  | cons x xs ih =>
    have hx : p x := ha x (by simp)
    simp only [List.cons_append, List.takeWhile_cons, hx, if_true]
    rw [ih (fun c hc => ha c (by simp [hc]))]

theorem dropWhile_append_of (p : Char → Bool) (a b : List Char)
    (ha : ∀ c ∈ a, p c)
    (hb : b = [] ∨ ∃ c cs, b = c :: cs ∧ p c = false) :
    (a ++ b).dropWhile p = b := by
  induction a with
  | nil =>
    rcases hb with rfl | ⟨c, cs, rfl, hc⟩
    · rfl
    · simp [List.dropWhile, hc]
  | cons x xs ih =>
    have hx : p x := ha x (by simp)
    simp only [List.cons_append, List.dropWhile_cons, hx, if_true]
    exact ih (fun c hc => ha c (by simp [hc]))

/-! ## JSON values

Model of the Python `json` module as used by `protocol.py` (`json.dumps`
with `separators=(",", ":")`, i.e. compact with `ensure_ascii`, and
`json.loads`).  Numeric literals are kept as source text, so `1.5e3` is
representable without floating-point arithmetics.  `Json`, `JsonList` and
`JsonMembers` form a mutual inductive because Lean's kernel reduction (used
by `decide`-style witnesses) needs structural recursion. -/

mutual
inductive Json where
  | null
  | bool (b : Bool)
  | num (lit : String)
  | str (s : String)
  | arr (xs : JsonList)
  | obj (ms : JsonMembers)
deriving DecidableEq, Repr

inductive JsonList where
  | nil
  | cons (hd : Json) (tl : JsonList)
deriving DecidableEq, Repr

inductive JsonMembers where
  | nil
  | cons (k : String) (v : Json) (tl : JsonMembers)
deriving DecidableEq, Repr
end

/-- Association lookup in a JSON object, as Python's `dict.__getitem__` /
`dict.get` (JSON objects decoded by `json.loads` have unique keys, later
duplicates overriding earlier ones; the protocol never produces
duplicates). -/
def JsonMembers.find? : JsonMembers → String → Option Json
  | .nil, _ => none
  | .cons k v tl, key =>
    match tl.find? key with
    | some w => some w
    | none => if k = key then some v else none

/-- Python `dict.get(key, default)`: the stored value even if it is `null`
(= Python `None`), and `default` only when the key is absent. -/
def JsonMembers.getD (ms : JsonMembers) (key : String) (dflt : Json) : Json :=
  (ms.find? key).getD dflt

/-- Python truthiness of a decoded JSON value (`None`, `False`, `0`, `""`,
`[]` and an empty dict are falsy).  Zero numbers are recognized by their
literal (`0`, `-0`, `0.0`, `-0.0`); an exotic zero literal such as `0e0`
(a falsy float in Python) is treated as truthy — a documented model
restriction, no frame of this protocol carries one. -/
def jsonTruthy : Json → Bool
  | .null => false
  | .bool b => b
  | .num lit => !(lit = "0" || lit = "-0" || lit = "0.0" || lit = "-0.0")
  | .str s => !s.isEmpty
  | .arr xs => match xs with | .nil => false | _ => true
  | .obj ms => match ms with | .nil => false | _ => true

/-- Lowercase-hex digit, as in Python's `"\u%04x"` escapes. -/
def hexDigitChar (n : Nat) : Char := "0123456789abcdef".data.getD n '0'

def toHex4 (n : Nat) : List Char :=
  [hexDigitChar (n / 4096 % 16), hexDigitChar (n / 256 % 16),
   hexDigitChar (n / 16 % 16), hexDigitChar (n % 16)]

/-- `json.dumps` escaping of one character with `ensure_ascii=True`:
short escapes for the common controls, `\uXXXX` for the other controls and
all non-ASCII, surrogate pairs above the BMP. -/
def escapeChar (c : Char) : List Char :=
  if c = '"' then ['\\', '"']
  else if c = '\\' then ['\\', '\\']
  else if c = '\x08' then ['\\', 'b']
  else if c = '\t' then ['\\', 't']
  else if c = '\n' then ['\\', 'n']
  else if c = '\x0c' then ['\\', 'f']
  else if c = '\r' then ['\\', 'r']
  else if c.toNat < 0x20 then '\\' :: 'u' :: toHex4 c.toNat
  else if c.toNat < 0x7F then [c]
  else if c.toNat < 0x10000 then '\\' :: 'u' :: toHex4 c.toNat
  else
    ('\\' :: 'u' :: toHex4 (0xD800 + (c.toNat - 0x10000) / 0x400)) ++
      ('\\' :: 'u' :: toHex4 (0xDC00 + (c.toNat - 0x10000) % 0x400))

def escapeChars : List Char → List Char
  | [] => []
  | c :: cs => escapeChar c ++ escapeChars cs

/-! Compact JSON serialization: model of
`json.dumps(x, separators=(",", ":"))` from `WSMessage.serialize`. -/
mutual
def Json.dumps : Json → List Char
  | .null => ['n', 'u', 'l', 'l']
  | .bool false => ['f', 'a', 'l', 's', 'e']
  | .bool true => ['t', 'r', 'u', 'e']
  | .num lit => lit.data
  | .str s => '"' :: (escapeChars s.data ++ ['"'])
  | .arr .nil => ['[', ']']
  | .arr xs => '[' :: (JsonList.dumps xs ++ [']'])
  | .obj .nil => ['{', '}']
  | .obj ms => '{' :: (JsonMembers.dumps ms ++ ['}'])

def JsonList.dumps : JsonList → List Char
  | .nil => []
  | .cons h .nil => h.dumps
  | .cons h t => h.dumps ++ ',' :: t.dumps

def JsonMembers.dumps : JsonMembers → List Char
  | .nil => []
  | .cons k v .nil => '"' :: (escapeChars k.data ++ '"' :: ':' :: v.dumps)
  | .cons k v t =>
    ('"' :: (escapeChars k.data ++ '"' :: ':' :: v.dumps)) ++ ',' :: t.dumps
end

/-! ## JSON parsing (model of `json.loads`) -/

def isJsonWs (c : Char) : Bool := c = ' ' || c = '\t' || c = '\n' || c = '\r'

def skipWs : List Char → List Char
  | [] => []
  | c :: cs => if isJsonWs c then skipWs cs else c :: cs

def hexVal (c : Char) : Option Nat :=
  if c.isDigit then some (c.toNat - 48)
  else if 'a' ≤ c && c ≤ 'f' then some (c.toNat - 87)
  else if 'A' ≤ c && c ≤ 'F' then some (c.toNat - 55)
  else none

def hex4 (h1 h2 h3 h4 : Char) : Option Nat := do
  let v1 ← hexVal h1
  let v2 ← hexVal h2
  let v3 ← hexVal h3
  let v4 ← hexVal h4
  some (4096 * v1 + 256 * v2 + 16 * v3 + v4)

/-- Decode a single-character string escape (after the backslash). -/
def escDecode (e : Char) : Option Char :=
  if e = '"' then some '"'
  else if e = '\\' then some '\\'
  else if e = '/' then some '/'
  else if e = 'b' then some '\x08'
  else if e = 'f' then some '\x0c'
  else if e = 'n' then some '\n'
  else if e = 'r' then some '\r'
  else if e = 't' then some '\t'
  else none

/-- Parse the body of a JSON string (after the opening quote) up to and
including the closing quote.  Strict mode: unescaped controls are
rejected.  Model restriction: Python's `json.loads` additionally accepts
lone `\uD800`-`\uDFFF` escapes (producing surrogate code units, which Lean
`Char` cannot hold); this model rejects them. -/
def parseStringBody : Nat → List Char → Option (List Char × List Char)
  | 0, _ => none
  | f + 1, l =>
    match l with
    | [] => none
    | c :: cs =>
      if c = '"' then some ([], cs)
      else if c = '\\' then
        match cs with
        | 'u' :: h1 :: h2 :: h3 :: h4 :: cs1 => do
          let n ← hex4 h1 h2 h3 h4
          if 0xD800 ≤ n ∧ n ≤ 0xDBFF then
            match cs1 with
            | '\\' :: 'u' :: g1 :: g2 :: g3 :: g4 :: cs2 => do
              let m ← hex4 g1 g2 g3 g4
              if 0xDC00 ≤ m ∧ m ≤ 0xDFFF then do
                let (s, r) ← parseStringBody f cs2
                some (Char.ofNat (0x10000 + (n - 0xD800) * 0x400 + (m - 0xDC00)) :: s, r)
              else none
            | _ => none
          else if 0xDC00 ≤ n ∧ n ≤ 0xDFFF then none
          else do
            let (s, r) ← parseStringBody f cs1
            some (Char.ofNat n :: s, r)
        | e :: cs1 => do
          let d ← escDecode e
          let (s, r) ← parseStringBody f cs1
          some (d :: s, r)
        | [] => none
      else if c.toNat < 0x20 then none
      else do
        let (s, r) ← parseStringBody f cs
        some (c :: s, r)

def spanDigits (l : List Char) : List Char × List Char :=
  (l.takeWhile Char.isDigit, l.dropWhile Char.isDigit)

/-- The integer part of a JSON number: `0 | [1-9][0-9]*` (exactly the first
group of Python's `json.scanner.NUMBER_RE`). -/
def parseIntPart : List Char → Option (List Char × List Char)
  | [] => none
  | c :: rest =>
    if c = '0' then some (['0'], rest)
    else if c.isDigit then
      some (c :: (spanDigits rest).1, (spanDigits rest).2)
    else none

def headIsDigit : List Char → Bool
  | c :: _ => c.isDigit
  | [] => false

/-- Optional fraction `(\.\d+)?`: consumed only when the dot is followed by
a digit, as the regex group requires. -/
def parseFracPart (l : List Char) : List Char × List Char :=
  match l with
  | c :: rest =>
    if c = '.' then
      if headIsDigit rest then ('.' :: (spanDigits rest).1, (spanDigits rest).2)
      else ([], l)
    else ([], l)
  | [] => ([], l)

/-- Optional exponent `([eE][-+]?\d+)?`. -/
def parseExpPart (l : List Char) : List Char × List Char :=
  match l with
  | c :: rest =>
    if c = 'e' || c = 'E' then
      match rest with
      | s :: rest2 =>
        if s = '+' || s = '-' then
          if headIsDigit rest2 then (c :: s :: (spanDigits rest2).1, (spanDigits rest2).2)
          else ([], l)
        else if s.isDigit then (c :: (spanDigits rest).1, (spanDigits rest).2)
        else ([], l)
      | [] => ([], l)
    else ([], l)
  | [] => ([], l)

/-- A JSON number token: `-? int frac? exp?` (Python `NUMBER_RE`); returns
the token text and the remaining input. -/
def parseNumber (l : List Char) : Option (List Char × List Char) :=
  match l with
  | c :: rest =>
    if c = '-' then
      (parseIntPart rest).map (fun pr =>
        ('-' :: (pr.1 ++ (parseFracPart pr.2).1 ++ (parseExpPart (parseFracPart pr.2).2).1),
          (parseExpPart (parseFracPart pr.2).2).2))
    else
      (parseIntPart l).map (fun pr =>
        (pr.1 ++ (parseFracPart pr.2).1 ++ (parseExpPart (parseFracPart pr.2).2).1,
          (parseExpPart (parseFracPart pr.2).2).2))
  | [] => none

/-- `some rest` when `pat` is a prefix of `l` and `rest` is what follows. -/
def dropPrefix? : List Char → List Char → Option (List Char)
  | [], l => some l
  | _ :: _, [] => none
  | p :: ps, c :: cs => if c = p then dropPrefix? ps cs else none

/-! Fuel-driven JSON value parser (model of the scanner inside
`json.loads`, with the pure-Python scanner's dispatch order; the fuel only
bounds nesting and is always sufficient at `length + 1` because every
recursive call consumes at least one character).  `NaN`, `Infinity` and
`-Infinity` are accepted like Python's default `parse_constant`. -/
mutual
def parseValue : Nat → List Char → Option (Json × List Char)
  | 0, _ => none
  | f + 1, l =>
    match l with
    | [] => none
    | c :: cs =>
      if c = '"' then
        (parseStringBody (cs.length + 1) cs).map (fun p => (Json.str ⟨p.1⟩, p.2))
      else if c = '{' then
        (match skipWs cs with
         | d :: r =>
           if d = '}' then some (.obj .nil, r)
           else (parseMembers f (d :: r)).map (fun p => (Json.obj p.1, p.2))
         | [] => none)
      else if c = '[' then
        (match skipWs cs with
         | d :: r =>
           if d = ']' then some (.arr .nil, r)
           else (parseElems f (d :: r)).map (fun p => (Json.arr p.1, p.2))
         | [] => none)
      else
        match dropPrefix? ['n', 'u', 'l', 'l'] l with
        | some r => some (.null, r)
        | none =>
          match dropPrefix? ['t', 'r', 'u', 'e'] l with
          | some r => some (.bool true, r)
          | none =>
            match dropPrefix? ['f', 'a', 'l', 's', 'e'] l with
            | some r => some (.bool false, r)
            | none =>
              match parseNumber l with
              | some (tok, r) => some (.num ⟨tok⟩, r)
              | none =>
                match dropPrefix? ['N', 'a', 'N'] l with
                | some r => some (.num "NaN", r)
                | none =>
                  match dropPrefix? ['I', 'n', 'f', 'i', 'n', 'i', 't', 'y'] l with
                  | some r => some (.num "Infinity", r)
                  | none =>
                    match dropPrefix?
                        ['-', 'I', 'n', 'f', 'i', 'n', 'i', 't', 'y'] l with
                    | some r => some (.num "-Infinity", r)
                    | none => none

def parseMembers : Nat → List Char → Option (JsonMembers × List Char)
  | 0, _ => none
  | f + 1, l =>
    match l with
    | '"' :: cs => do
      let (k, r1) ← parseStringBody (cs.length + 1) cs
      match skipWs r1 with
      | ':' :: r3 => do
        let (v, r4) ← parseValue f (skipWs r3)
        match skipWs r4 with
        | ',' :: r6 => do
          let (ms, r7) ← parseMembers f (skipWs r6)
          some (JsonMembers.cons ⟨k⟩ v ms, r7)
        | '}' :: r6 => some (JsonMembers.cons ⟨k⟩ v .nil, r6)
        | _ => none
      | _ => none
    | _ => none

def parseElems : Nat → List Char → Option (JsonList × List Char)
  | 0, _ => none
  | f + 1, l => do
    let (v, r1) ← parseValue f l
    match skipWs r1 with
    | ',' :: r2 => do
      let (xs, r3) ← parseElems f (skipWs r2)
      some (JsonList.cons v xs, r3)
    | ']' :: r2 => some (JsonList.cons v .nil, r2)
    | _ => none
end

/-- Model of `json.loads`: optional surrounding whitespace, one JSON value,
nothing else.  Returns `none` where Python raises `JSONDecodeError` (the
caller `WSMessage.parse` catches it). -/
def jsonLoads (s : String) : Option Json :=
  let l := skipWs s.data
  match parseValue (l.length + 1) l with
  | some (j, r) => if skipWs r = [] then some j else none
  | none => none

/-- Well-formedness of a `Json` value as a value (not merely a token
container): every numeric literal is a number token that the grammar
accepts in full. -/
def numTokenWF (lit : String) : Bool :=
  parseNumber lit.data == some (lit.data, [])

mutual
def Json.wf : Json → Bool
  | .null => true
  | .bool _ => true
  | .num lit => numTokenWF lit
  | .str _ => true
  | .arr xs => xs.wf
  | .obj ms => ms.wf

def JsonList.wf : JsonList → Bool
  | .nil => true
  | .cons h t => h.wf && t.wf

def JsonMembers.wf : JsonMembers → Bool
  | .nil => true
  | .cons _ v t => v.wf && t.wf
end

/-- Decimal integer literal, the text `str(v)` that `json.dumps` emits for
a Python `int`. -/
def intLit (v : Int) : String :=
  if v < 0 then ⟨'-' :: natToChars v.natAbs⟩ else ⟨natToChars v.natAbs⟩

/-- A JSON integer (the only numbers this protocol produces). -/
def Json.int (v : Int) : Json := .num (intLit v)

/-- Read a numeric literal back as an integer when it is integral.  Model
restriction: fractional or exponent literals yield `none`; the state
machines below therefore treat them as errors where Python would compute a
float (no protocol frame carries such a literal). -/
def intCharsVal? : List Char → Option Int
  | [] => none
  | '-' :: ds =>
    if ds ≠ [] && ds.all Char.isDigit then some (-(digitsVal ds : Int)) else none
  | ds => if ds.all Char.isDigit then some (digitsVal ds) else none

def intLitVal? (lit : String) : Option Int := intCharsVal? lit.data

-- Sanity checks of the JSON model on concrete values.
example : jsonLoads "\x7b\"a\":[1,true,null]\x7d" =
    some (.obj (.cons "a" (.arr (.cons (.int 1)
      (.cons (.bool true) (.cons .null .nil)))) .nil)) := rfl
example : jsonLoads "1.5e3" = some (.num "1.5e3") := rfl
example : jsonLoads "01" = none := rfl
example : jsonLoads "" = none := rfl
example : String.mk (Json.dumps (.obj (.cons "a" (.str "b") .nil))) =
    "\x7b\"a\":\"b\"\x7d" := rfl
example : intLitVal? (intLit (-35)) = some (-35) := rfl


/-! ## Round-trip of the JSON codec -/

theorem skipWs_cons_of_not (c : Char) (cs : List Char) (h : isJsonWs c = false) :
    skipWs (c :: cs) = c :: cs := by
  simp [skipWs, h]

theorem isJsonWs_of_isDigit {c : Char} (h : c.isDigit = true) : isJsonWs c = false := by
  have hsp : c ≠ ' ' := by intro e; rw [e] at h; exact absurd h (by decide)
  have hta : c ≠ '\t' := by intro e; rw [e] at h; exact absurd h (by decide)
  have hnl : c ≠ '\n' := by intro e; rw [e] at h; exact absurd h (by decide)
  have hcr : c ≠ '\r' := by intro e; rw [e] at h; exact absurd h (by decide)
  simp [isJsonWs, hsp, hta, hnl, hcr]

theorem ne_of_isDigit {c x : Char} (h : c.isDigit = true) (hx : x.isDigit = false) :
    c ≠ x := by
  intro e
  rw [e] at h
  rw [h] at hx
  exact Bool.noConfusion hx

theorem hexVal_hexDigitChar : ∀ d, d < 16 → hexVal (hexDigitChar d) = some d := by decide

theorem hex4_toHex4 (n : Nat) (h : n < 65536) :
    hex4 (hexDigitChar (n / 4096 % 16)) (hexDigitChar (n / 256 % 16))
      (hexDigitChar (n / 16 % 16)) (hexDigitChar (n % 16)) = some n := by
  rw [hex4, hexVal_hexDigitChar _ (by omega), hexVal_hexDigitChar _ (by omega),
    hexVal_hexDigitChar _ (by omega), hexVal_hexDigitChar _ (by omega)]
  show some _ = some n
  congr 1
  omega

/-- Character validity transported to `toNat`: a `Char` is below the
surrogate range or in the planes above it. -/
theorem char_toNat_valid (c : Char) :
    c.toNat < 0xD800 ∨ (0xE000 ≤ c.toNat ∧ c.toNat < 0x110000) := by
  have h := c.valid
  rcases h with h | ⟨h1, h2⟩
  · left; exact h
  · right; exact ⟨h1, h2⟩

theorem escapeChar_length_pos (c : Char) : 0 < (escapeChar c).length := by
  rw [escapeChar]
  by_cases h1 : c = '"'
  · rw [if_pos h1]; decide
  rw [if_neg h1]
  by_cases h2 : c = '\\'
  · rw [if_pos h2]; decide
  rw [if_neg h2]
  by_cases h3 : c = '\x08'
  · rw [if_pos h3]; decide
  rw [if_neg h3]
  by_cases h4 : c = '\t'
  · rw [if_pos h4]; decide
  rw [if_neg h4]
  by_cases h5 : c = '\n'
  · rw [if_pos h5]; decide
  rw [if_neg h5]
  by_cases h6 : c = '\x0c'
  · rw [if_pos h6]; decide
  rw [if_neg h6]
  by_cases h7 : c = '\r'
  · rw [if_pos h7]; decide
  rw [if_neg h7]
  by_cases h8 : c.toNat < 32
  · rw [if_pos h8]; simp [toHex4]
  rw [if_neg h8]
  by_cases h9 : c.toNat < 127
  · rw [if_pos h9]; simp
  rw [if_neg h9]
  by_cases h10 : c.toNat < 65536
  · rw [if_pos h10]; simp [toHex4]
  rw [if_neg h10]
  simp [toHex4]

theorem escapeChars_length (s : List Char) : s.length ≤ (escapeChars s).length := by
  induction s with
  | nil => simp [escapeChars]
  | cons c cs ih =>
    have := escapeChar_length_pos c
    simp only [escapeChars, List.length_cons, List.length_append]
    omega

/-- Step of `parseStringBody` across a `\uXXXX` escape of a non-surrogate. -/
theorem parseStringBody_u_step {f : Nat} {a b e d : Char} {L : List Char} {n : Nat}
    (hx : hex4 a b e d = some n) (h1 : ¬(0xD800 ≤ n ∧ n ≤ 0xDBFF))
    (h2 : ¬(0xDC00 ≤ n ∧ n ≤ 0xDFFF)) :
    parseStringBody (f + 1) ('\\' :: 'u' :: a :: b :: e :: d :: L) =
      (parseStringBody f L).bind (fun p => some (Char.ofNat n :: p.1, p.2)) := by
  simp only [parseStringBody]
  rw [hx]
  simp only [Option.bind_eq_bind', Option.some_bind]
  rw [if_neg h1, if_neg h2]
  rfl

/-- Step of `parseStringBody` across a surrogate-pair escape. -/
theorem parseStringBody_u2_step {f : Nat} {a b e d a2 b2 e2 d2 : Char} {L : List Char}
    {n m : Nat}
    (hx : hex4 a b e d = some n) (h1 : 0xD800 ≤ n ∧ n ≤ 0xDBFF)
    (hx2 : hex4 a2 b2 e2 d2 = some m) (h2 : 0xDC00 ≤ m ∧ m ≤ 0xDFFF) :
    parseStringBody (f + 1)
        ('\\' :: 'u' :: a :: b :: e :: d :: '\\' :: 'u' :: a2 :: b2 :: e2 :: d2 :: L) =
      (parseStringBody f L).bind
        (fun p =>
          some (Char.ofNat (0x10000 + (n - 0xD800) * 0x400 + (m - 0xDC00)) :: p.1, p.2)) := by
  simp only [parseStringBody]
  rw [hx]
  simp only [Option.bind_eq_bind', Option.some_bind]
  rw [if_pos h1]
  show (do
    let m2 ← hex4 a2 b2 e2 d2
    if 0xDC00 ≤ m2 ∧ m2 ≤ 0xDFFF then do
      let (s, r) ← parseStringBody f L
      some (Char.ofNat (0x10000 + (n - 0xD800) * 0x400 + (m2 - 0xDC00)) :: s, r)
    else none) = _
  rw [hx2]
  simp only [Option.bind_eq_bind', Option.some_bind]
  rw [if_pos h2]

/-- The JSON string escaper is inverted by the string-body parser
(given enough fuel). -/
theorem parseStringBody_escape :
    ∀ (s : List Char) (f : Nat) (rest : List Char), s.length < f →
      parseStringBody f (escapeChars s ++ '"' :: rest) = some (s, rest) := by
  intro s
  induction s with
  | nil =>
    intro f rest hf
    cases f with
    | zero => omega
    | succ f =>
      show parseStringBody (f + 1) ('"' :: rest) = some ([], rest)
      simp only [parseStringBody]
      rfl
  | cons c cs ih =>
    intro f rest hf
    cases f with
    | zero => omega
    | succ f =>
      have hfc : cs.length < f := by
        simp only [List.length_cons] at hf; omega
      show parseStringBody (f + 1) ((escapeChar c ++ escapeChars cs) ++ '"' :: rest) = _
      by_cases h1 : c = '"'
      · subst h1
        have step : ∀ L, parseStringBody (f + 1) ('\\' :: '"' :: L) =
            (parseStringBody f L).bind (fun p => some ('"' :: p.1, p.2)) := by
          intro L; simp only [parseStringBody, escDecode]; rfl
        show parseStringBody (f + 1) ((['\\', '"'] ++ escapeChars cs) ++ '"' :: rest) = _
        simp only [List.cons_append, List.nil_append]
        rw [step, ih f rest hfc]
        rfl
      by_cases h2 : c = '\\'
      · subst h2
        have step : ∀ L, parseStringBody (f + 1) ('\\' :: '\\' :: L) =
            (parseStringBody f L).bind (fun p => some ('\\' :: p.1, p.2)) := by
          intro L; simp only [parseStringBody, escDecode]; rfl
        show parseStringBody (f + 1) ((['\\', '\\'] ++ escapeChars cs) ++ '"' :: rest) = _
        simp only [List.cons_append, List.nil_append]
        rw [step, ih f rest hfc]
        rfl
      by_cases h3 : c = '\x08'
      · subst h3
        have step : ∀ L, parseStringBody (f + 1) ('\\' :: 'b' :: L) =
            (parseStringBody f L).bind (fun p => some ('\x08' :: p.1, p.2)) := by
          intro L; simp only [parseStringBody, escDecode]; rfl
        show parseStringBody (f + 1) ((['\\', 'b'] ++ escapeChars cs) ++ '"' :: rest) = _
        simp only [List.cons_append, List.nil_append]
        rw [step, ih f rest hfc]
        rfl
      by_cases h4 : c = '\t'
      · subst h4
        have step : ∀ L, parseStringBody (f + 1) ('\\' :: 't' :: L) =
            (parseStringBody f L).bind (fun p => some ('\t' :: p.1, p.2)) := by
          intro L; simp only [parseStringBody, escDecode]; rfl
        show parseStringBody (f + 1) ((['\\', 't'] ++ escapeChars cs) ++ '"' :: rest) = _
        simp only [List.cons_append, List.nil_append]
        rw [step, ih f rest hfc]
        rfl
      by_cases h5 : c = '\n'
      · subst h5
        have step : ∀ L, parseStringBody (f + 1) ('\\' :: 'n' :: L) =
            (parseStringBody f L).bind (fun p => some ('\n' :: p.1, p.2)) := by
          intro L; simp only [parseStringBody, escDecode]; rfl
        show parseStringBody (f + 1) ((['\\', 'n'] ++ escapeChars cs) ++ '"' :: rest) = _
        simp only [List.cons_append, List.nil_append]
        rw [step, ih f rest hfc]
        rfl
      by_cases h6 : c = '\x0c'
      · subst h6
        have step : ∀ L, parseStringBody (f + 1) ('\\' :: 'f' :: L) =
            (parseStringBody f L).bind (fun p => some ('\x0c' :: p.1, p.2)) := by
          intro L; simp only [parseStringBody, escDecode]; rfl
        show parseStringBody (f + 1) ((['\\', 'f'] ++ escapeChars cs) ++ '"' :: rest) = _
        simp only [List.cons_append, List.nil_append]
        rw [step, ih f rest hfc]
        rfl
      by_cases h7 : c = '\r'
      · subst h7
        have step : ∀ L, parseStringBody (f + 1) ('\\' :: 'r' :: L) =
            (parseStringBody f L).bind (fun p => some ('\r' :: p.1, p.2)) := by
          intro L; simp only [parseStringBody, escDecode]; rfl
        show parseStringBody (f + 1) ((['\\', 'r'] ++ escapeChars cs) ++ '"' :: rest) = _
        simp only [List.cons_append, List.nil_append]
        rw [step, ih f rest hfc]
        rfl
      by_cases h8 : c.toNat < 0x20
      · have hesc : escapeChar c = '\\' :: 'u' :: toHex4 c.toNat := by
          rw [escapeChar]
          rw [if_neg h1, if_neg h2, if_neg h3, if_neg h4, if_neg h5, if_neg h6,
            if_neg h7, if_pos h8]
        have hx := hex4_toHex4 c.toNat (by omega)
        have hn1 : ¬(55296 ≤ c.toNat ∧ c.toNat ≤ 56319) := by omega
        have hn2 : ¬(56320 ≤ c.toNat ∧ c.toNat ≤ 57343) := by omega
        rw [hesc]
        simp only [toHex4, List.cons_append, List.nil_append]
        rw [parseStringBody_u_step hx hn1 hn2, ih f rest hfc]
        simp [Char.ofNat_toNat]
      by_cases h9 : c.toNat < 0x7F
      · have hesc : escapeChar c = [c] := by
          rw [escapeChar]
          rw [if_neg h1, if_neg h2, if_neg h3, if_neg h4, if_neg h5, if_neg h6,
            if_neg h7, if_neg h8, if_pos h9]
        rw [hesc]
        simp only [List.cons_append, List.nil_append]
        simp only [parseStringBody]
        rw [if_neg h1, if_neg h2, if_neg h8, ih f rest hfc]
        rfl
      by_cases h10 : c.toNat < 0x10000
      · have hesc : escapeChar c = '\\' :: 'u' :: toHex4 c.toNat := by
          rw [escapeChar]
          rw [if_neg h1, if_neg h2, if_neg h3, if_neg h4, if_neg h5, if_neg h6,
            if_neg h7, if_neg h8, if_neg h9, if_pos h10]
        have hval := char_toNat_valid c
        have hx := hex4_toHex4 c.toNat (by omega)
        have hn1 : ¬(55296 ≤ c.toNat ∧ c.toNat ≤ 56319) := by omega
        have hn2 : ¬(56320 ≤ c.toNat ∧ c.toNat ≤ 57343) := by omega
        rw [hesc]
        simp only [toHex4, List.cons_append, List.nil_append]
        rw [parseStringBody_u_step hx hn1 hn2, ih f rest hfc]
        simp [Char.ofNat_toNat]
      · have hesc : escapeChar c =
            ('\\' :: 'u' :: toHex4 (0xD800 + (c.toNat - 0x10000) / 0x400)) ++
              ('\\' :: 'u' :: toHex4 (0xDC00 + (c.toNat - 0x10000) % 0x400)) := by
          rw [escapeChar]
          rw [if_neg h1, if_neg h2, if_neg h3, if_neg h4, if_neg h5, if_neg h6,
            if_neg h7, if_neg h8, if_neg h9, if_neg h10]
        have hval := char_toNat_valid c
        have hx1 := hex4_toHex4 (55296 + (c.toNat - 65536) / 1024) (by omega)
        have hs1 : 55296 ≤ 55296 + (c.toNat - 65536) / 1024 ∧
            55296 + (c.toNat - 65536) / 1024 ≤ 56319 := by omega
        have hx2 := hex4_toHex4 (56320 + (c.toNat - 65536) % 1024) (by omega)
        have hs2 : 56320 ≤ 56320 + (c.toNat - 65536) % 1024 ∧
            56320 + (c.toNat - 65536) % 1024 ≤ 57343 := by omega
        rw [hesc]
        simp only [toHex4, List.cons_append, List.nil_append, List.append_assoc]
        rw [parseStringBody_u2_step hx1 hs1 hx2 hs2, ih f rest hfc]
        simp only [Option.bind_eq_bind', Option.some_bind]
        have harith : 65536 + (55296 + (c.toNat - 65536) / 1024 - 55296) * 1024 +
            (56320 + (c.toNat - 65536) % 1024 - 56320) = c.toNat := by omega
        rw [harith, Char.ofNat_toNat]

/-! ## Number-token lemmas -/

/-- Characters that may legally follow a serialized JSON value inside a
larger document (they stop the number scanner). -/
def delimOk : List Char → Bool
  | [] => true
  | c :: _ => c = ',' || c = ']' || c = '}'

def startsFrac : List Char → Bool
  | c :: rest => c = '.' && headIsDigit rest
  | [] => false

def startsExp : List Char → Bool
  | c :: s :: r2 =>
    (c = 'e' || c = 'E') && (if s = '+' || s = '-' then headIsDigit r2 else s.isDigit)
  | _ => false

theorem headIsDigit_dropWhile (l : List Char) :
    headIsDigit (l.dropWhile Char.isDigit) = false := by
  induction l with
  | nil => rfl
  | cons c cs ih =>
    by_cases h : c.isDigit = true
    · simp [List.dropWhile_cons, h, ih]
    · simp only [Bool.not_eq_true] at h
      simp [List.dropWhile_cons, h, headIsDigit]

theorem spanDigits_append (ds rest : List Char) (hd : ∀ c ∈ ds, c.isDigit)
    (hr : headIsDigit rest = false) :
    spanDigits (ds ++ rest) = (ds, rest) := by
  unfold spanDigits
  have hb : rest = [] ∨ ∃ c cs, rest = c :: cs ∧ Char.isDigit c = false := by
    cases rest with
    | nil => exact Or.inl rfl
    | cons c cs => exact Or.inr ⟨c, cs, rfl, by simpa [headIsDigit] using hr⟩
  rw [takeWhile_append_of _ _ _ hd hb, dropWhile_append_of _ _ _ hd hb]

theorem parseIntPart_sound {l ip r : List Char} (h : parseIntPart l = some (ip, r)) :
    l = ip ++ r ∧
      (ip = ['0'] ∨
        ∃ c ds, ip = c :: ds ∧ c.isDigit = true ∧ c ≠ '0' ∧ (∀ d ∈ ds, d.isDigit) ∧
          headIsDigit r = false) := by
  cases l with
  | nil => exact absurd h (by rw [parseIntPart]; simp)
  | cons c rest =>
    rw [parseIntPart] at h
    by_cases h0 : c = '0'
    · rw [if_pos h0] at h
      simp only [Option.some.injEq, Prod.mk.injEq] at h
      obtain ⟨h1, h2⟩ := h
      subst h0
      constructor
      · rw [← h1, ← h2]; rfl
      · exact Or.inl h1.symm
    · rw [if_neg h0] at h
      by_cases hd : c.isDigit = true
      · rw [if_pos hd] at h
        simp only [Option.some.injEq, Prod.mk.injEq] at h
        obtain ⟨h1, h2⟩ := h
        constructor
        · rw [← h1, ← h2]
          show c :: rest = c :: (spanDigits rest).1 ++ (spanDigits rest).2
          simp [spanDigits, List.takeWhile_append_dropWhile]
        · refine Or.inr ⟨c, (spanDigits rest).1, h1.symm, hd, h0, ?_, ?_⟩
          · intro d hdm
            exact List.mem_takeWhile_imp hdm
          · rw [← h2]
            exact headIsDigit_dropWhile rest
      · rw [if_neg hd] at h
        exact absurd h (by simp)

theorem parseIntPart_zero (rest : List Char) :
    parseIntPart ('0' :: rest) = some (['0'], rest) := by
  rw [parseIntPart, if_pos rfl]

theorem parseIntPart_append {c : Char} {ds rest : List Char} (hc : c.isDigit = true)
    (h0 : c ≠ '0') (hds : ∀ d ∈ ds, d.isDigit) (hr : headIsDigit rest = false) :
    parseIntPart ((c :: ds) ++ rest) = some (c :: ds, rest) := by
  show parseIntPart (c :: (ds ++ rest)) = _
  rw [parseIntPart, if_neg h0, if_pos hc, spanDigits_append ds rest hds hr]

theorem parseFracPart_sound {l fp r : List Char} (h : parseFracPart l = (fp, r)) :
    (fp = [] ∧ r = l) ∨
      (∃ ds, fp = '.' :: ds ∧ ds ≠ [] ∧ (∀ d ∈ ds, d.isDigit) ∧ l = fp ++ r ∧
        headIsDigit r = false) := by
  cases l with
  | nil =>
    rw [parseFracPart] at h
    simp only [Prod.mk.injEq] at h
    exact Or.inl ⟨h.1.symm, h.2.symm⟩
  | cons c rest =>
    rw [parseFracPart] at h
    by_cases hc : c = '.'
    · rw [if_pos hc] at h
      by_cases hh : headIsDigit rest = true
      · rw [if_pos hh] at h
        simp only [Prod.mk.injEq] at h
        obtain ⟨h1, h2⟩ := h
        subst hc
        refine Or.inr ⟨(spanDigits rest).1, h1.symm, ?_, ?_, ?_, ?_⟩
        · cases rest with
          | nil => exact absurd hh (by simp [headIsDigit])
          | cons d dd =>
            have hd : d.isDigit = true := by simpa [headIsDigit] using hh
            simp [spanDigits, List.takeWhile_cons, hd]
        · intro d hdm
          exact List.mem_takeWhile_imp hdm
        · rw [← h1, ← h2]
          show '.' :: rest = ('.' :: (spanDigits rest).1) ++ (spanDigits rest).2
          simp [spanDigits, List.takeWhile_append_dropWhile]
        · rw [← h2]
          exact headIsDigit_dropWhile rest
      · simp only [Bool.not_eq_true] at hh
        rw [hh] at h
        simp only [Bool.false_eq_true, if_false, Prod.mk.injEq] at h
        exact Or.inl ⟨h.1.symm, h.2.symm⟩
    · rw [if_neg hc] at h
      simp only [Prod.mk.injEq] at h
      exact Or.inl ⟨h.1.symm, h.2.symm⟩

theorem parseFracPart_none {l : List Char} (h : startsFrac l = false) :
    parseFracPart l = ([], l) := by
  cases l with
  | nil => rfl
  | cons c rest =>
    rw [parseFracPart]
    by_cases hc : c = '.'
    · rw [if_pos hc]
      have hh : headIsDigit rest = false := by
        subst hc
        simpa [startsFrac] using h
      rw [hh]
      simp
    · rw [if_neg hc]

theorem parseFracPart_append {ds rest : List Char} (hne : ds ≠ [])
    (hds : ∀ d ∈ ds, d.isDigit) (hr : headIsDigit rest = false) :
    parseFracPart (('.' :: ds) ++ rest) = ('.' :: ds, rest) := by
  show parseFracPart ('.' :: (ds ++ rest)) = _
  rw [parseFracPart, if_pos rfl]
  have hh : headIsDigit (ds ++ rest) = true := by
    cases ds with
    | nil => exact absurd rfl hne
    | cons d dd => simpa [headIsDigit] using hds d (by simp)
  rw [if_pos hh, spanDigits_append ds rest hds hr]

theorem parseExpPart_sound {l ep r : List Char} (h : parseExpPart l = (ep, r)) :
    (ep = [] ∧ r = l) ∨
      (∃ c s ds, ep = c :: s :: ds ∧ (c = 'e' || c = 'E') = true ∧
        (s = '+' || s = '-') = true ∧ ds ≠ [] ∧ (∀ d ∈ ds, d.isDigit) ∧
        l = ep ++ r ∧ headIsDigit r = false) ∨
      (∃ c ds, ep = c :: ds ∧ (c = 'e' || c = 'E') = true ∧ ds ≠ [] ∧
        (∀ d ∈ ds, d.isDigit) ∧ l = ep ++ r ∧ headIsDigit r = false) := by
  cases l with
  | nil =>
    rw [parseExpPart] at h
    simp only [Prod.mk.injEq] at h
    exact Or.inl ⟨h.1.symm, h.2.symm⟩
  | cons c rest =>
    cases rest with
    | nil =>
      rw [parseExpPart] at h
      by_cases hc : (c = 'e' || c = 'E') = true
      · rw [if_pos hc] at h
        simp only [Prod.mk.injEq] at h
        exact Or.inl ⟨h.1.symm, h.2.symm⟩
      · rw [if_neg hc] at h
        simp only [Prod.mk.injEq] at h
        exact Or.inl ⟨h.1.symm, h.2.symm⟩
    | cons s rest2 =>
      rw [parseExpPart] at h
      by_cases hc : (c = 'e' || c = 'E') = true
      · rw [if_pos hc] at h
        by_cases hs : (s = '+' || s = '-') = true
        · rw [if_pos hs] at h
          by_cases hh : headIsDigit rest2 = true
          · rw [if_pos hh] at h
            simp only [Prod.mk.injEq] at h
            obtain ⟨h1, h2⟩ := h
            refine Or.inr (Or.inl ⟨c, s, (spanDigits rest2).1, h1.symm, hc, hs, ?_, ?_, ?_, ?_⟩)
            · cases rest2 with
              | nil => exact absurd hh (by simp [headIsDigit])
              | cons d dd =>
                have hd : d.isDigit = true := by simpa [headIsDigit] using hh
                simp [spanDigits, List.takeWhile_cons, hd]
            · intro d hdm
              exact List.mem_takeWhile_imp hdm
            · rw [← h1, ← h2]
              show c :: s :: rest2 = (c :: s :: (spanDigits rest2).1) ++ (spanDigits rest2).2
              simp [spanDigits, List.takeWhile_append_dropWhile]
            · rw [← h2]
              exact headIsDigit_dropWhile rest2
          · simp only [Bool.not_eq_true] at hh
            rw [hh] at h
            simp only [Bool.false_eq_true, if_false, Prod.mk.injEq] at h
            exact Or.inl ⟨h.1.symm, h.2.symm⟩
        · rw [if_neg hs] at h
          by_cases hd : s.isDigit = true
          · rw [if_pos hd] at h
            simp only [Prod.mk.injEq] at h
            obtain ⟨h1, h2⟩ := h
            refine Or.inr (Or.inr ⟨c, (spanDigits (s :: rest2)).1, h1.symm, hc, ?_, ?_, ?_, ?_⟩)
            · simp [spanDigits, List.takeWhile_cons, hd]
            · intro d hdm
              exact List.mem_takeWhile_imp hdm
            · rw [← h1, ← h2]
              show c :: s :: rest2 = (c :: (spanDigits (s :: rest2)).1) ++ (spanDigits (s :: rest2)).2
              simp [spanDigits, List.takeWhile_append_dropWhile]
            · rw [← h2]
              exact headIsDigit_dropWhile (s :: rest2)
          · rw [if_neg hd] at h
            simp only [Prod.mk.injEq] at h
            exact Or.inl ⟨h.1.symm, h.2.symm⟩
      · rw [if_neg hc] at h
        simp only [Prod.mk.injEq] at h
        exact Or.inl ⟨h.1.symm, h.2.symm⟩

theorem parseExpPart_none {l : List Char} (h : startsExp l = false) :
    parseExpPart l = ([], l) := by
  cases l with
  | nil => rfl
  | cons c rest =>
    cases rest with
    | nil =>
      rw [parseExpPart]
      by_cases hc : (c = 'e' || c = 'E') = true
      · rw [if_pos hc]
      · rw [if_neg hc]
    | cons s rest2 =>
      rw [parseExpPart]
      by_cases hc : (c = 'e' || c = 'E') = true
      · rw [if_pos hc]
        have h2 : (if (s = '+' || s = '-') = true then headIsDigit rest2 else s.isDigit) = false := by
          have h3 := h
          simp only [startsExp, hc, Bool.true_and] at h3
          exact h3
        by_cases hs : (s = '+' || s = '-') = true
        · rw [if_pos hs]
          rw [if_pos hs] at h2
          rw [h2]
          simp
        · rw [if_neg hs]
          rw [if_neg hs] at h2
          rw [h2]
          simp
      · rw [if_neg hc]

theorem parseExpPart_append_sign {c s : Char} {ds rest : List Char}
    (hc : (c = 'e' || c = 'E') = true) (hs : (s = '+' || s = '-') = true)
    (hne : ds ≠ []) (hds : ∀ d ∈ ds, d.isDigit) (hr : headIsDigit rest = false) :
    parseExpPart ((c :: s :: ds) ++ rest) = (c :: s :: ds, rest) := by
  show parseExpPart (c :: s :: (ds ++ rest)) = _
  rw [parseExpPart, if_pos hc, if_pos hs]
  have hh : headIsDigit (ds ++ rest) = true := by
    cases ds with
    | nil => exact absurd rfl hne
    | cons d dd => simpa [headIsDigit] using hds d (by simp)
  rw [if_pos hh, spanDigits_append ds rest hds hr]

theorem parseExpPart_append_nosign {c : Char} {ds rest : List Char}
    (hc : (c = 'e' || c = 'E') = true) (hne : ds ≠ [])
    (hds : ∀ d ∈ ds, d.isDigit) (hr : headIsDigit rest = false) :
    parseExpPart ((c :: ds) ++ rest) = (c :: ds, rest) := by
  cases ds with
  | nil => exact absurd rfl hne
  | cons s ds2 =>
    show parseExpPart (c :: s :: (ds2 ++ rest)) = _
    have hsd : s.isDigit = true := hds s (by simp)
    have hs : (s = '+' || s = '-') = false := by
      have h1 : s ≠ '+' := ne_of_isDigit hsd (by decide)
      have h2 : s ≠ '-' := ne_of_isDigit hsd (by decide)
      simp [h1, h2]
    simp only [parseExpPart.eq_def]
    rw [if_pos hc, if_neg (by simp [hs]), if_pos hsd]
    have : spanDigits (s :: (ds2 ++ rest)) = (s :: ds2, rest) := by
      show spanDigits ((s :: ds2) ++ rest) = _
      exact spanDigits_append (s :: ds2) rest hds hr
    rw [this]

theorem delim_not_digit {rest : List Char} (h : delimOk rest = true) :
    headIsDigit rest = false := by
  cases rest with
  | nil => rfl
  | cons r rs =>
    simp only [delimOk, Bool.or_eq_true, decide_eq_true_eq] at h
    rcases h with (h | h) | h <;> (subst h; rfl)

theorem delim_not_frac {rest : List Char} (h : delimOk rest = true) :
    startsFrac rest = false := by
  cases rest with
  | nil => rfl
  | cons r rs =>
    simp only [delimOk, Bool.or_eq_true, decide_eq_true_eq] at h
    rcases h with (h | h) | h <;> (subst h; simp [startsFrac])

theorem delim_not_exp {rest : List Char} (h : delimOk rest = true) :
    startsExp rest = false := by
  cases rest with
  | nil => rfl
  | cons r rs =>
    simp only [delimOk, Bool.or_eq_true, decide_eq_true_eq] at h
    cases rs with
    | nil => rfl
    | cons s rs2 => rcases h with (h | h) | h <;> (subst h; simp [startsExp])

theorem startsFrac_cons_ne {e : Char} {l : List Char} (he : e ≠ '.') :
    startsFrac (e :: l) = false := by
  simp [startsFrac, he]

theorem startsExp_cons_ne {e : Char} {l : List Char} (he : (e = 'e' || e = 'E') = false) :
    startsExp (e :: l) = false := by
  cases l with
  | nil => rfl
  | cons s l2 => simp [startsExp, he]

/-- The unsigned tail of a number token (int, frac, exp) re-parses in front
of any delimiter-headed continuation.  `hip`/`hfp`/`hep` are the phase
results on the original token, which was consumed exactly. -/
theorem parseNumber_phases_append {tl rest ip r1 fp r2 ep : List Char}
    (hip : parseIntPart tl = some (ip, r1))
    (hfp : parseFracPart r1 = (fp, r2))
    (hep : parseExpPart r2 = (ep, []))
    (hd : delimOk rest = true) :
    parseIntPart (tl ++ rest) = some (ip, (fp ++ ep) ++ rest) ∧
      parseFracPart ((fp ++ ep) ++ rest) = (fp, ep ++ rest) ∧
      parseExpPart (ep ++ rest) = (ep, rest) := by
  obtain ⟨htl, hips⟩ := parseIntPart_sound hip
  have hfps := parseFracPart_sound hfp
  have heps := parseExpPart_sound hep
  -- derive the shapes of fp and ep
  have hr1 : r1 = fp ++ r2 := by
    rcases hfps with ⟨rfl, rfl⟩ | ⟨ds, rfl, _, _, hsplit, _⟩
    · rfl
    · exact hsplit
  have hr2 : r2 = ep := by
    rcases heps with ⟨rfl, h2⟩ | ⟨c, s, ds, rfl, _, _, _, _, hsplit, _⟩ |
        ⟨c, ds, rfl, _, _, _, hsplit, _⟩
    · exact h2.symm
    · simpa using hsplit
    · simpa using hsplit
  -- the exponent part in front of `rest`
  have hexp : parseExpPart (ep ++ rest) = (ep, rest) := by
    rcases heps with ⟨rfl, h2⟩ | ⟨c, s, ds, rfl, hc, hs, hne, hds, _, _⟩ |
        ⟨c, ds, rfl, hc, hne, hds, _, _⟩
    · exact parseExpPart_none (delim_not_exp hd)
    · exact parseExpPart_append_sign hc hs hne hds (delim_not_digit hd)
    · exact parseExpPart_append_nosign hc hne hds (delim_not_digit hd)
  -- head of `ep ++ rest` is never a digit and never starts a fraction
  have hep_head_nd : headIsDigit (ep ++ rest) = false := by
    rcases heps with ⟨rfl, _⟩ | ⟨c, s, ds, rfl, hc, _, _, _, _, _⟩ |
        ⟨c, ds, rfl, hc, _, _, _, _⟩
    · exact delim_not_digit hd
    · show c.isDigit = false
      simp only [Bool.or_eq_true, decide_eq_true_eq] at hc
      rcases hc with rfl | rfl <;> rfl
    · show c.isDigit = false
      simp only [Bool.or_eq_true, decide_eq_true_eq] at hc
      rcases hc with rfl | rfl <;> rfl
  have hep_head_nf : startsFrac (ep ++ rest) = false := by
    rcases heps with ⟨rfl, _⟩ | ⟨c, s, ds, rfl, hc, _, _, _, _, _⟩ |
        ⟨c, ds, rfl, hc, _, _, _, _⟩
    · exact delim_not_frac hd
    · refine startsFrac_cons_ne ?_
      simp only [Bool.or_eq_true, decide_eq_true_eq] at hc
      rcases hc with rfl | rfl <;> decide
    · refine startsFrac_cons_ne ?_
      simp only [Bool.or_eq_true, decide_eq_true_eq] at hc
      rcases hc with rfl | rfl <;> decide
  -- the fraction part in front of `ep ++ rest`
  have hfrac : parseFracPart ((fp ++ ep) ++ rest) = (fp, ep ++ rest) := by
    rcases hfps with ⟨rfl, hsame⟩ | ⟨ds, rfl, hne, hds, _, _⟩
    · simpa using parseFracPart_none hep_head_nf
    · rw [List.append_assoc]
      exact parseFracPart_append hne hds hep_head_nd
  -- head of `(fp ++ ep) ++ rest` is not a digit
  have hfp_head_nd : headIsDigit ((fp ++ ep) ++ rest) = false := by
    rcases hfps with ⟨rfl, _⟩ | ⟨ds, rfl, _, _, _, _⟩
    · simpa using hep_head_nd
    · rfl
  refine ⟨?_, hfrac, hexp⟩
  -- the integer part in front of the rest
  rcases hips with rfl | ⟨c1, ds, rfl, hc1, h01, hds1, _⟩
  · have : tl ++ rest = '0' :: ((fp ++ ep) ++ rest) := by
      rw [htl, hr1, hr2]
      simp [List.append_assoc]
    rw [this, parseIntPart_zero]
  · have : tl ++ rest = (c1 :: ds) ++ ((fp ++ ep) ++ rest) := by
      rw [htl, hr1, hr2]
      simp [List.append_assoc]
    rw [this, parseIntPart_append hc1 h01 hds1 hfp_head_nd]

/-- A number token that was consumed in full re-parses unchanged in front
of a delimiter-headed continuation. -/
theorem parseNumber_self_append {tok rest : List Char}
    (h : parseNumber tok = some (tok, [])) (hd : delimOk rest = true) :
    parseNumber (tok ++ rest) = some (tok, rest) := by
  cases tok with
  | nil => exact absurd h (by rw [parseNumber]; simp)
  | cons c tl =>
    rw [parseNumber] at h
    show parseNumber (c :: (tl ++ rest)) = _
    rw [parseNumber]
    by_cases hc : c = '-'
    · rw [if_pos hc] at h ⊢
      cases hip : parseIntPart tl with
      | none => rw [hip] at h; exact absurd h (by simp)
      | some pr =>
        obtain ⟨ip, r1⟩ := pr
        rcases hfp : parseFracPart r1 with ⟨fp, r2⟩
        rcases hep : parseExpPart r2 with ⟨ep, r3⟩
        simp only [hip, Option.map_some', hfp, hep, Option.some.injEq, Prod.mk.injEq] at h
        obtain ⟨htok, hr3⟩ := h
        subst hr3
        obtain ⟨hi, hf, he⟩ := parseNumber_phases_append hip hfp hep hd
        simp only [hi, Option.map_some', hf, he, Option.some.injEq, Prod.mk.injEq]
        exact ⟨htok, trivial⟩
    · rw [if_neg hc] at h ⊢
      cases hip : parseIntPart (c :: tl) with
      | none => rw [hip] at h; exact absurd h (by simp)
      | some pr =>
        obtain ⟨ip, r1⟩ := pr
        rcases hfp : parseFracPart r1 with ⟨fp, r2⟩
        rcases hep : parseExpPart r2 with ⟨ep, r3⟩
        simp only [hip, Option.map_some', hfp, hep, Option.some.injEq, Prod.mk.injEq] at h
        obtain ⟨htok, hr3⟩ := h
        subst hr3
        obtain ⟨hi, hf, he⟩ := parseNumber_phases_append hip hfp hep hd
        have hsplit : c :: (tl ++ rest) = (c :: tl) ++ rest := rfl
        rw [hsplit]
        simp only [hi, Option.map_some', hf, he, Option.some.injEq, Prod.mk.injEq]
        exact ⟨htok, trivial⟩

/-- The first character of a number token. -/
theorem parseNumber_head {tok r l : List Char} (h : parseNumber l = some (tok, r)) :
    ∃ c tl, tok = c :: tl ∧ (c = '-' ∨ c.isDigit = true) := by
  cases l with
  | nil => exact absurd h (by rw [parseNumber]; simp)
  | cons c tl =>
    rw [parseNumber] at h
    by_cases hc : c = '-'
    · rw [if_pos hc] at h
      cases hip : parseIntPart tl with
      | none => rw [hip] at h; exact absurd h (by simp)
      | some pr =>
        obtain ⟨ip, r1⟩ := pr
        simp only [hip, Option.map_some', Option.some.injEq, Prod.mk.injEq] at h
        exact ⟨'-', _, h.1.symm, Or.inl rfl⟩
    · rw [if_neg hc] at h
      cases hip : parseIntPart (c :: tl) with
      | none => rw [hip] at h; exact absurd h (by simp)
      | some pr =>
        obtain ⟨ip, r1⟩ := pr
        obtain ⟨hsplit, hshape⟩ := parseIntPart_sound hip
        simp only [hip, Option.map_some', Option.some.injEq, Prod.mk.injEq] at h
        rcases hshape with he0 | ⟨c1, ds, hcons, hdig, _, _, _⟩
        · subst he0
          exact ⟨'0', _, h.1.symm, Or.inr (by decide)⟩
        · subst hcons
          exact ⟨c1, _, h.1.symm, Or.inr hdig⟩

theorem dropPrefix_none_of_head {p c : Char} {ps cs : List Char} (h : c ≠ p) :
    dropPrefix? (p :: ps) (c :: cs) = none := by
  rw [dropPrefix?, if_neg h]

theorem numTokenWF_iff {lit : String} (h : numTokenWF lit = true) :
    parseNumber lit.data = some (lit.data, []) := by
  simpa [numTokenWF, beq_iff_eq] using h

/-- The serialization of a member list starts with a double quote. -/
theorem jmdumps_head (k : String) (v : Json) (tl : JsonMembers) :
    ∃ r, JsonMembers.dumps (.cons k v tl) = '"' :: r := by
  cases tl with
  | nil =>
    refine ⟨escapeChars k.data ++ '"' :: ':' :: v.dumps, ?_⟩
    simp [JsonMembers.dumps]
  | cons k2 v2 tl2 =>
    refine ⟨escapeChars k.data ++ '"' :: ':' ::
      (v.dumps ++ ',' :: (JsonMembers.cons k2 v2 tl2).dumps), ?_⟩
    simp [JsonMembers.dumps]

/-- A well-formed JSON value serializes to a string whose first character
is not JSON whitespace and is not a structural terminator. -/
theorem dumps_head_not_ws (j : Json) (hwf : j.wf = true) :
    ∃ c cs, Json.dumps j = c :: cs ∧ isJsonWs c = false ∧ c ≠ ']' ∧ c ≠ '}' := by
  cases j with
  | null => exact ⟨'n', ['u', 'l', 'l'], rfl, by decide, by decide, by decide⟩
  | bool b =>
    cases b with
    | true => exact ⟨'t', ['r', 'u', 'e'], rfl, by decide, by decide, by decide⟩
    | false => exact ⟨'f', ['a', 'l', 's', 'e'], rfl, by decide, by decide, by decide⟩
  | num lit =>
    have h := numTokenWF_iff (by simpa [Json.wf] using hwf)
    obtain ⟨c, tl, hdata, hhead⟩ := parseNumber_head h
    refine ⟨c, tl, ?_, ?_, ?_, ?_⟩
    · show lit.data = c :: tl
      exact hdata
    · rcases hhead with rfl | hd
      · decide
      · exact isJsonWs_of_isDigit hd
    · rcases hhead with rfl | hd
      · decide
      · exact ne_of_isDigit hd (by decide)
    · rcases hhead with rfl | hd
      · decide
      · exact ne_of_isDigit hd (by decide)
  | str s => exact ⟨'"', escapeChars s.data ++ ['"'], rfl, by decide, by decide, by decide⟩
  | arr xs =>
    cases xs with
    | nil => exact ⟨'[', [']'], rfl, by decide, by decide, by decide⟩
    | cons h t =>
      refine ⟨'[', JsonList.dumps (.cons h t) ++ [']'], ?_, by decide, by decide, by decide⟩
      simp [Json.dumps]
  | obj ms =>
    cases ms with
    | nil => exact ⟨'{', ['}'], rfl, by decide, by decide, by decide⟩
    | cons k v t =>
      refine ⟨'{', JsonMembers.dumps (.cons k v t) ++ ['}'], ?_, by decide, by decide, by decide⟩
      simp [Json.dumps]

/-- `skipWs` does not touch the serialization of a well-formed value. -/
theorem skipWs_dumps_append (v : Json) (hv : v.wf = true) (R : List Char) :
    skipWs (Json.dumps v ++ R) = Json.dumps v ++ R := by
  obtain ⟨c0, cs0, hd0, hw0, _, _⟩ := dumps_head_not_ws v hv
  rw [hd0, List.cons_append]
  exact skipWs_cons_of_not _ _ hw0


/-- Main JSON round-trip, by induction on the parser fuel: a serialized
well-formed value re-parses exactly, in front of any delimiter-headed
continuation. -/
theorem parse_dumps_fuel : ∀ n : Nat,
    (∀ (j : Json) (rest : List Char), j.wf = true → delimOk rest = true →
      (Json.dumps j).length < n → parseValue n (Json.dumps j ++ rest) = some (j, rest)) ∧
    (∀ (ms : JsonMembers) (rest : List Char), ms ≠ .nil → JsonMembers.wf ms = true →
      (JsonMembers.dumps ms).length + 1 < n →
      parseMembers n (JsonMembers.dumps ms ++ '}' :: rest) = some (ms, rest)) ∧
    (∀ (xs : JsonList) (rest : List Char), xs ≠ .nil → JsonList.wf xs = true →
      (JsonList.dumps xs).length + 1 < n →
      parseElems n (JsonList.dumps xs ++ ']' :: rest) = some (xs, rest)) := by
  intro n
  induction n with
  | zero => refine ⟨?_, ?_, ?_⟩ <;> (intros; omega)
  | succ n ih =>
    obtain ⟨ihv, ihm, ihe⟩ := ih
    refine ⟨?_, ?_, ?_⟩
    · -- values
      intro j rest hwf hdel hlen
      cases j with
      | null =>
        show parseValue (n + 1) ('n' :: 'u' :: 'l' :: 'l' :: rest) = _
        simp only [parseValue]
        rfl
      | bool b =>
        cases b with
        | true =>
          show parseValue (n + 1) ('t' :: 'r' :: 'u' :: 'e' :: rest) = _
          simp only [parseValue]
          rfl
        | false =>
          show parseValue (n + 1) ('f' :: 'a' :: 'l' :: 's' :: 'e' :: rest) = _
          simp only [parseValue]
          rfl
      | num lit =>
        have hwf' := numTokenWF_iff (by simpa [Json.wf] using hwf)
        obtain ⟨c, tl, hdata, hhead⟩ := parseNumber_head hwf'
        have hnum := parseNumber_self_append hwf' hdel
        rw [hdata, List.cons_append] at hnum
        have hcs : c ≠ '"' ∧ c ≠ '{' ∧ c ≠ '[' ∧ c ≠ 'n' ∧ c ≠ 't' ∧ c ≠ 'f' := by
          rcases hhead with rfl | hd
          · exact ⟨by decide, by decide, by decide, by decide, by decide, by decide⟩
          · exact ⟨ne_of_isDigit hd (by decide), ne_of_isDigit hd (by decide),
              ne_of_isDigit hd (by decide), ne_of_isDigit hd (by decide),
              ne_of_isDigit hd (by decide), ne_of_isDigit hd (by decide)⟩
        obtain ⟨hq, hbr, hbk, hn, ht, hf2⟩ := hcs
        show parseValue (n + 1) (lit.data ++ rest) = _
        rw [hdata, List.cons_append]
        simp only [parseValue]
        rw [if_neg hq, if_neg hbr, if_neg hbk]
        simp only [dropPrefix_none_of_head hn, dropPrefix_none_of_head ht,
          dropPrefix_none_of_head hf2, hnum]
        rw [← hdata]
      | str s =>
        have hlen2 : s.data.length < (escapeChars s.data ++ '"' :: rest).length + 1 := by
          have := escapeChars_length s.data
          simp only [List.length_append, List.length_cons]
          omega
        show parseValue (n + 1) (('"' :: (escapeChars s.data ++ ['"'])) ++ rest) = _
        rw [List.cons_append, List.append_assoc]
        simp only [List.singleton_append]
        simp only [parseValue]
        rw [if_pos trivial, parseStringBody_escape s.data _ rest hlen2]
        rfl
      | arr xs =>
        cases xs with
        | nil =>
          show parseValue (n + 1) ('[' :: ']' :: rest) = _
          simp only [parseValue]
          rw [if_neg (by decide), if_neg (by decide), if_pos trivial,
            skipWs_cons_of_not ']' rest (by decide)]
          rfl
        | cons h t =>
          have hdump : Json.dumps (.arr (.cons h t)) =
              '[' :: (JsonList.dumps (.cons h t) ++ [']']) := by
            simp [Json.dumps]
          rw [hdump] at hlen ⊢
          rw [List.cons_append, List.append_assoc]
          simp only [List.singleton_append]
          have hwf2 : JsonList.wf (.cons h t) = true := by simpa [Json.wf] using hwf
          have hv1 : Json.wf h = true := by
            have hx := hwf2
            simp only [JsonList.wf, Bool.and_eq_true] at hx
            exact hx.1
          have hlene : (JsonList.dumps (.cons h t)).length + 1 < n := by
            simp only [List.length_cons, List.length_append, List.length_singleton] at hlen
            omega
          have helems := ihe (.cons h t) rest (fun hh => nomatch hh) hwf2 hlene
          obtain ⟨c0, cs0, hd0, hw0, hnb, hnc⟩ := dumps_head_not_ws h hv1
          have heldshape : ∃ Y, JsonList.dumps (.cons h t) = c0 :: Y := by
            cases t with
            | nil =>
              refine ⟨cs0, ?_⟩
              show Json.dumps h = c0 :: cs0
              exact hd0
            | cons h2 t2 =>
              refine ⟨cs0 ++ ',' :: JsonList.dumps (.cons h2 t2), ?_⟩
              have : JsonList.dumps (.cons h (.cons h2 t2)) =
                  Json.dumps h ++ ',' :: JsonList.dumps (.cons h2 t2) := by
                simp [JsonList.dumps]
              rw [this, hd0, List.cons_append]
          obtain ⟨Y, hY⟩ := heldshape
          simp only [parseValue]
          rw [if_neg (by decide), if_neg (by decide), if_pos trivial]
          rw [hY, List.cons_append, skipWs_cons_of_not _ _ hw0]
          rw [hY, List.cons_append] at helems
          simp only [helems, if_neg hnb]
          rfl
      | obj ms =>
        cases ms with
        | nil =>
          show parseValue (n + 1) ('{' :: '}' :: rest) = _
          simp only [parseValue]
          rw [if_neg (by decide), if_pos trivial, skipWs_cons_of_not '}' rest (by decide)]
          rfl
        | cons k v t =>
          have hdump : Json.dumps (.obj (.cons k v t)) =
              '{' :: (JsonMembers.dumps (.cons k v t) ++ ['}']) := by
            simp [Json.dumps]
          rw [hdump] at hlen ⊢
          rw [List.cons_append, List.append_assoc]
          simp only [List.singleton_append]
          have hwf2 : JsonMembers.wf (.cons k v t) = true := by simpa [Json.wf] using hwf
          have hlenm : (JsonMembers.dumps (.cons k v t)).length + 1 < n := by
            simp only [List.length_cons, List.length_append, List.length_singleton] at hlen
            omega
          have hmems := ihm (.cons k v t) rest (fun hh => nomatch hh) hwf2 hlenm
          obtain ⟨mt, hmh⟩ := jmdumps_head k v t
          simp only [parseValue]
          rw [if_neg (by decide), if_pos trivial]
          rw [hmh, List.cons_append, skipWs_cons_of_not _ _ (by decide)]
          rw [hmh, List.cons_append] at hmems
          simp only [hmems, if_neg (show ('"' : Char) ≠ '}' by decide)]
          rfl
    · -- object members
      intro ms rest hne hwf hlen
      cases ms with
      | nil => exact absurd rfl hne
      | cons k v tl =>
        have hwfp : Json.wf v = true ∧ JsonMembers.wf tl = true := by
          have hx := hwf
          simp only [JsonMembers.wf, Bool.and_eq_true] at hx
          exact hx
        cases tl with
        | nil =>
          have hdm : JsonMembers.dumps (.cons k v .nil) =
              '"' :: (escapeChars k.data ++ '"' :: ':' :: Json.dumps v) := by
            simp [JsonMembers.dumps]
          rw [hdm] at hlen ⊢
          rw [List.cons_append, List.append_assoc]
          simp only [List.cons_append]
          have hklen : k.data.length <
              (escapeChars k.data ++ '"' :: ':' :: (Json.dumps v ++ '}' :: rest)).length + 1 := by
            have := escapeChars_length k.data
            simp only [List.length_append, List.length_cons]
            omega
          have hstr := parseStringBody_escape k.data _
            (':' :: (Json.dumps v ++ '}' :: rest)) hklen
          have hvlen : (Json.dumps v).length < n := by
            simp only [List.length_cons, List.length_append] at hlen
            omega
          have hval := ihv v ('}' :: rest) hwfp.1 (by rfl) hvlen
          have hskv := skipWs_dumps_append v hwfp.1 ('}' :: rest)
          simp only [parseMembers, hstr, Option.bind_eq_bind', Option.some_bind,
            skipWs_cons_of_not ':' (Json.dumps v ++ '}' :: rest) (by decide),
            hskv, hval, skipWs_cons_of_not '}' rest (by decide)]
        | cons k2 v2 tl2 =>
          have hdm : JsonMembers.dumps (.cons k v (.cons k2 v2 tl2)) =
              '"' :: (escapeChars k.data ++ '"' :: ':' ::
                (Json.dumps v ++ ',' :: JsonMembers.dumps (.cons k2 v2 tl2))) := by
            simp [JsonMembers.dumps]
          rw [hdm] at hlen ⊢
          rw [List.cons_append, List.append_assoc]
          simp only [List.cons_append, List.append_assoc]
          have hklen : k.data.length <
              (escapeChars k.data ++ '"' :: ':' :: (Json.dumps v ++ ',' ::
                (JsonMembers.dumps (.cons k2 v2 tl2) ++ '}' :: rest))).length + 1 := by
            have := escapeChars_length k.data
            simp only [List.length_append, List.length_cons]
            omega
          have hstr := parseStringBody_escape k.data _
            (':' :: (Json.dumps v ++ ',' ::
              (JsonMembers.dumps (.cons k2 v2 tl2) ++ '}' :: rest))) hklen
          have hvlen : (Json.dumps v).length < n := by
            simp only [List.length_cons, List.length_append] at hlen
            omega
          have hmlen : (JsonMembers.dumps (.cons k2 v2 tl2)).length + 1 < n := by
            simp only [List.length_cons, List.length_append] at hlen
            omega
          have hval := ihv v (',' :: (JsonMembers.dumps (.cons k2 v2 tl2) ++ '}' :: rest))
            hwfp.1 (by rfl) hvlen
          have hskv := skipWs_dumps_append v hwfp.1
            (',' :: (JsonMembers.dumps (.cons k2 v2 tl2) ++ '}' :: rest))
          have hmems := ihm (.cons k2 v2 tl2) rest (fun hh => nomatch hh) hwfp.2 hmlen
          obtain ⟨mt2, hmh2⟩ := jmdumps_head k2 v2 tl2
          have hskm : skipWs (JsonMembers.dumps (.cons k2 v2 tl2) ++ '}' :: rest) =
              JsonMembers.dumps (.cons k2 v2 tl2) ++ '}' :: rest := by
            rw [hmh2, List.cons_append]
            exact skipWs_cons_of_not _ _ (by decide)
          simp only [parseMembers, hstr, Option.bind_eq_bind', Option.some_bind,
            skipWs_cons_of_not ':' (Json.dumps v ++ ',' ::
              (JsonMembers.dumps (.cons k2 v2 tl2) ++ '}' :: rest)) (by decide),
            hskv, hval,
            skipWs_cons_of_not ',' (JsonMembers.dumps (.cons k2 v2 tl2) ++ '}' :: rest)
              (by decide),
            hskm, hmems]
    · -- array elements
      intro xs rest hne hwf hlen
      cases xs with
      | nil => exact absurd rfl hne
      | cons h t =>
        have hwfp : Json.wf h = true ∧ JsonList.wf t = true := by
          have hx := hwf
          simp only [JsonList.wf, Bool.and_eq_true] at hx
          exact hx
        cases t with
        | nil =>
          have hdm : JsonList.dumps (.cons h .nil) = Json.dumps h := by
            simp [JsonList.dumps]
          rw [hdm] at hlen ⊢
          have hval := ihv h (']' :: rest) hwfp.1 (by rfl) (by omega : (Json.dumps h).length < n)
          simp only [parseElems, Option.bind_eq_bind', Option.some_bind, hval,
            skipWs_cons_of_not ']' rest (by decide)]
        | cons h2 t2 =>
          have hdm : JsonList.dumps (.cons h (.cons h2 t2)) =
              Json.dumps h ++ ',' :: JsonList.dumps (.cons h2 t2) := by
            simp [JsonList.dumps]
          rw [hdm] at hlen ⊢
          rw [List.append_assoc]
          simp only [List.cons_append]
          have hvlen : (Json.dumps h).length < n := by
            simp only [List.length_append, List.length_cons] at hlen
            omega
          have htlen : (JsonList.dumps (.cons h2 t2)).length + 1 < n := by
            simp only [List.length_append, List.length_cons] at hlen
            omega
          have hval := ihv h (',' :: (JsonList.dumps (.cons h2 t2) ++ ']' :: rest))
            hwfp.1 (by rfl) hvlen
          have htail := ihe (.cons h2 t2) rest (fun hh => nomatch hh) hwfp.2 htlen
          have hwfh2 : Json.wf h2 = true := by
            have hx := hwfp.2
            simp only [JsonList.wf, Bool.and_eq_true] at hx
            exact hx.1
          obtain ⟨c0, cs0, hd0, hw0, _, _⟩ := dumps_head_not_ws h2 hwfh2
          have hske : skipWs (JsonList.dumps (.cons h2 t2) ++ ']' :: rest) =
              JsonList.dumps (.cons h2 t2) ++ ']' :: rest := by
            cases t2 with
            | nil =>
              show skipWs (Json.dumps h2 ++ ']' :: rest) = _
              exact skipWs_dumps_append h2 hwfh2 _
            | cons h3 t3 =>
              have heq : JsonList.dumps (.cons h2 (.cons h3 t3)) =
                  Json.dumps h2 ++ ',' :: JsonList.dumps (.cons h3 t3) := by
                simp [JsonList.dumps]
              rw [heq, List.append_assoc]
              exact skipWs_dumps_append h2 hwfh2 _
          simp only [parseElems, Option.bind_eq_bind', Option.some_bind, hval,
            skipWs_cons_of_not ',' (JsonList.dumps (.cons h2 t2) ++ ']' :: rest) (by decide),
            hske, htail]

/-- `json.loads` inverts compact `json.dumps` on well-formed values. -/
theorem jsonLoads_dumps (j : Json) (hwf : j.wf = true) :
    jsonLoads ⟨Json.dumps j⟩ = some j := by
  obtain ⟨c, cs, hd, hws, _, _⟩ := dumps_head_not_ws j hwf
  have hp := (parse_dumps_fuel ((Json.dumps j).length + 1)).1 j [] hwf (by rfl) (by omega)
  rw [List.append_nil] at hp
  show (match parseValue ((skipWs (Json.dumps j)).length + 1) (skipWs (Json.dumps j)) with
    | some (v, r) => if skipWs r = [] then some v else none
    | none => none) = some j
  rw [hd, skipWs_cons_of_not _ _ hws, ← hd, hp]
  rfl

theorem hexDigitChar_ne_nl (d : Nat) : hexDigitChar d ≠ '\n' := by
  by_cases h : d < 16
  · interval_cases d <;> decide
  · rw [hexDigitChar, List.getD_eq_default]
    · decide
    · simp
      omega

set_option maxRecDepth 4000 in
theorem escapeChar_no_nl (c : Char) : ∀ x ∈ escapeChar c, x ≠ '\n' := by
  intro x hx
  rw [escapeChar] at hx
  by_cases h1 : c = '"'
  · rw [if_pos h1] at hx
    simp only [List.mem_cons, List.not_mem_nil, or_false] at hx
    rcases hx with rfl | rfl <;> decide
  rw [if_neg h1] at hx
  by_cases h2 : c = '\\'
  · rw [if_pos h2] at hx
    simp only [List.mem_cons, List.not_mem_nil, or_false] at hx
    rcases hx with rfl | rfl <;> decide
  rw [if_neg h2] at hx
  by_cases h3 : c = '\x08'
  · rw [if_pos h3] at hx
    simp only [List.mem_cons, List.not_mem_nil, or_false] at hx
    rcases hx with rfl | rfl <;> decide
  rw [if_neg h3] at hx
  by_cases h4 : c = '\t'
  · rw [if_pos h4] at hx
    simp only [List.mem_cons, List.not_mem_nil, or_false] at hx
    rcases hx with rfl | rfl <;> decide
  rw [if_neg h4] at hx
  by_cases h5 : c = '\n'
  · rw [if_pos h5] at hx
    simp only [List.mem_cons, List.not_mem_nil, or_false] at hx
    rcases hx with rfl | rfl <;> decide
  rw [if_neg h5] at hx
  by_cases h6 : c = '\x0c'
  · rw [if_pos h6] at hx
    simp only [List.mem_cons, List.not_mem_nil, or_false] at hx
    rcases hx with rfl | rfl <;> decide
  rw [if_neg h6] at hx
  by_cases h7 : c = '\r'
  · rw [if_pos h7] at hx
    simp only [List.mem_cons, List.not_mem_nil, or_false] at hx
    rcases hx with rfl | rfl <;> decide
  rw [if_neg h7] at hx
  by_cases h8 : c.toNat < 32
  · rw [if_pos h8] at hx
    simp only [toHex4, List.mem_cons, List.not_mem_nil, or_false] at hx
    rcases hx with rfl | rfl | rfl | rfl | rfl | rfl <;>
      first
      | exact hexDigitChar_ne_nl _
      | decide
  rw [if_neg h8] at hx
  by_cases h9 : c.toNat < 127
  · rw [if_pos h9] at hx
    simp only [List.mem_cons, List.not_mem_nil, or_false] at hx
    subst hx
    intro hh
    rw [hh] at h8
    exact h8 (by decide)
  rw [if_neg h9] at hx
  by_cases h10 : c.toNat < 65536
  · rw [if_pos h10] at hx
    simp only [toHex4, List.mem_cons, List.not_mem_nil, or_false] at hx
    rcases hx with rfl | rfl | rfl | rfl | rfl | rfl <;>
      first
      | exact hexDigitChar_ne_nl _
      | decide
  · rw [if_neg h10] at hx
    simp only [toHex4, List.mem_append, List.mem_cons, List.not_mem_nil, or_false] at hx
    intro hcontr
    rw [hcontr] at hx
    rcases hx with (h | h | h | h | h | h) | (h | h | h | h | h | h)
    · exact absurd h (by decide)
    · exact absurd h (by decide)
    · exact absurd h.symm (hexDigitChar_ne_nl _)
    · exact absurd h.symm (hexDigitChar_ne_nl _)
    · exact absurd h.symm (hexDigitChar_ne_nl _)
    · exact absurd h.symm (hexDigitChar_ne_nl _)
    · exact absurd h (by decide)
    · exact absurd h (by decide)
    · exact absurd h.symm (hexDigitChar_ne_nl _)
    · exact absurd h.symm (hexDigitChar_ne_nl _)
    · exact absurd h.symm (hexDigitChar_ne_nl _)
    · exact absurd h.symm (hexDigitChar_ne_nl _)
theorem escapeChars_no_nl (s : List Char) : ∀ x ∈ escapeChars s, x ≠ '\n' := by
  induction s with
  | nil => intro x hx; cases hx
  | cons c cs ih =>
    intro x hx
    rcases List.mem_append.1 hx with hh | hh
    · exact escapeChar_no_nl c x hh
    · exact ih x hh

theorem parseNumber_chars {l tok r : List Char} (h : parseNumber l = some (tok, r)) :
    ∀ x ∈ tok, x.isDigit = true ∨ x = '-' ∨ x = '.' ∨ x = 'e' ∨ x = 'E' ∨ x = '+' := by
  have main : ∀ {l2 ip r1 : List Char}, parseIntPart l2 = some (ip, r1) →
      ∀ x ∈ ip ++ (parseFracPart r1).1 ++ (parseExpPart (parseFracPart r1).2).1,
        x.isDigit = true ∨ x = '-' ∨ x = '.' ∨ x = 'e' ∨ x = 'E' ∨ x = '+' := by
    intro l2 ip r1 hip x hx
    rcases hfp : parseFracPart r1 with ⟨fp, r2⟩
    rcases hep : parseExpPart r2 with ⟨ep, r3⟩
    rw [hfp, hep] at hx
    simp only [List.mem_append] at hx
    obtain ⟨_, hips⟩ := parseIntPart_sound hip
    have hfps := parseFracPart_sound hfp
    have heps := parseExpPart_sound hep
    rcases hx with (hx | hx) | hx
    · -- in the integer part
      rcases hips with rfl | ⟨c1, ds, rfl, hc1, _, hds, _⟩
      · simp only [List.mem_singleton] at hx
        subst hx
        exact Or.inl (by decide)
      · rcases List.mem_cons.1 hx with rfl | hh
        · exact Or.inl hc1
        · exact Or.inl (hds x hh)
    · -- in the fraction part
      rcases hfps with ⟨rfl, _⟩ | ⟨ds, rfl, _, hds, _, _⟩
      · cases hx
      · rcases List.mem_cons.1 hx with rfl | hh
        · exact Or.inr (Or.inr (Or.inl rfl))
        · exact Or.inl (hds x hh)
    · -- in the exponent part
      rcases heps with ⟨rfl, _⟩ | ⟨c1, s1, ds, rfl, hc1, hs1, _, hds, _, _⟩ |
          ⟨c1, ds, rfl, hc1, _, hds, _, _⟩
      · cases hx
      · rcases List.mem_cons.1 hx with rfl | hh
        · simp only [Bool.or_eq_true, decide_eq_true_eq] at hc1
          rcases hc1 with rfl | rfl
          · exact Or.inr (Or.inr (Or.inr (Or.inl rfl)))
          · exact Or.inr (Or.inr (Or.inr (Or.inr (Or.inl rfl))))
        · rcases List.mem_cons.1 hh with rfl | hh2
          · simp only [Bool.or_eq_true, decide_eq_true_eq] at hs1
            rcases hs1 with rfl | rfl
            · exact Or.inr (Or.inr (Or.inr (Or.inr (Or.inr rfl))))
            · exact Or.inr (Or.inl rfl)
          · exact Or.inl (hds x hh2)
      · rcases List.mem_cons.1 hx with rfl | hh
        · simp only [Bool.or_eq_true, decide_eq_true_eq] at hc1
          rcases hc1 with rfl | rfl
          · exact Or.inr (Or.inr (Or.inr (Or.inl rfl)))
          · exact Or.inr (Or.inr (Or.inr (Or.inr (Or.inl rfl))))
        · exact Or.inl (hds x hh)
  cases l with
  | nil => exact absurd h (by rw [parseNumber]; simp)
  | cons c tl =>
    rw [parseNumber] at h
    by_cases hc : c = '-'
    · rw [if_pos hc] at h
      cases hip : parseIntPart tl with
      | none => rw [hip] at h; exact absurd h (by simp)
      | some pr =>
        obtain ⟨ip, r1⟩ := pr
        simp only [hip, Option.map_some', Option.some.injEq, Prod.mk.injEq] at h
        intro x hx
        rw [← h.1] at hx
        rcases List.mem_cons.1 hx with rfl | hh
        · exact Or.inr (Or.inl rfl)
        · exact main hip x hh
    · rw [if_neg hc] at h
      cases hip : parseIntPart (c :: tl) with
      | none => rw [hip] at h; exact absurd h (by simp)
      | some pr =>
        obtain ⟨ip, r1⟩ := pr
        simp only [hip, Option.map_some', Option.some.injEq, Prod.mk.injEq] at h
        intro x hx
        rw [← h.1] at hx
        exact main hip x hx

/-! No serialized well-formed JSON value contains a newline character
(`json.dumps` with `ensure_ascii=True` escapes all control characters, and
number tokens are made of digits, signs, dots and exponent letters).  This
is what lets a JSON payload ride inside a single WebSocket text frame that
the `MESSAGE_PATTERN` regex (whose `.` does not match `\n`) can parse. -/

mutual
theorem jdumps_no_nl : ∀ (j : Json), j.wf = true → ∀ x ∈ Json.dumps j, x ≠ '\n'
  | .null, _, x, hx => by
      simp only [Json.dumps, List.mem_cons, List.not_mem_nil, or_false] at hx
      rcases hx with rfl | rfl | rfl | rfl <;> decide
  | .bool true, _, x, hx => by
      simp only [Json.dumps, List.mem_cons, List.not_mem_nil, or_false] at hx
      rcases hx with rfl | rfl | rfl | rfl <;> decide
  | .bool false, _, x, hx => by
      simp only [Json.dumps, List.mem_cons, List.not_mem_nil, or_false] at hx
      rcases hx with rfl | rfl | rfl | rfl | rfl <;> decide
  | .num lit, hwf, x, hx => by
      simp only [Json.dumps] at hx
      simp only [Json.wf, numTokenWF, beq_iff_eq] at hwf
      rcases parseNumber_chars hwf x hx with hd | rfl | rfl | rfl | rfl | rfl
      · intro hc; rw [hc] at hd; exact absurd hd (by decide)
      all_goals decide
  | .str s, _, x, hx => by
      simp only [Json.dumps, List.mem_cons, List.mem_append,
        List.not_mem_nil, or_false] at hx
      rcases hx with rfl | hh | rfl
      · decide
      · exact escapeChars_no_nl s.data x hh
      · decide
  | .arr .nil, _, x, hx => by
      simp only [Json.dumps, List.mem_cons, List.not_mem_nil, or_false] at hx
      rcases hx with rfl | rfl <;> decide
  | .arr (.cons h t), hwf, x, hx => by
      simp only [Json.dumps, List.mem_cons, List.mem_append,
        List.not_mem_nil, or_false] at hx
      simp only [Json.wf] at hwf
      rcases hx with rfl | hh | rfl
      · decide
      · exact jldumps_no_nl (.cons h t) hwf x hh
      · decide
  | .obj .nil, _, x, hx => by
      simp only [Json.dumps, List.mem_cons, List.not_mem_nil, or_false] at hx
      rcases hx with rfl | rfl <;> decide
  | .obj (.cons k v t), hwf, x, hx => by
      simp only [Json.dumps, List.mem_cons, List.mem_append,
        List.not_mem_nil, or_false] at hx
      simp only [Json.wf] at hwf
      rcases hx with rfl | hh | rfl
      · decide
      · exact jmdumps_no_nl (.cons k v t) hwf x hh
      · decide

theorem jldumps_no_nl :
    ∀ (xs : JsonList), xs.wf = true → ∀ x ∈ JsonList.dumps xs, x ≠ '\n'
  | .nil, _, _, hx => by cases hx
  | .cons h .nil, hwf, x, hx => by
      simp only [JsonList.wf, Bool.and_eq_true] at hwf
      simp only [JsonList.dumps] at hx
      exact jdumps_no_nl h hwf.1 x hx
  | .cons h (.cons h2 t), hwf, x, hx => by
      simp only [JsonList.wf, Bool.and_eq_true] at hwf
      simp only [JsonList.dumps, List.mem_append, List.mem_cons] at hx
      rcases hx with hh | rfl | hh
      · exact jdumps_no_nl h hwf.1 x hh
      · decide
      · exact jldumps_no_nl (.cons h2 t)
          (by simp only [JsonList.wf, Bool.and_eq_true]; exact hwf.2) x hh

theorem jmdumps_no_nl :
    ∀ (ms : JsonMembers), ms.wf = true → ∀ x ∈ JsonMembers.dumps ms, x ≠ '\n'
  | .nil, _, _, hx => by cases hx
  | .cons k v .nil, hwf, x, hx => by
      simp only [JsonMembers.wf, Bool.and_eq_true] at hwf
      simp only [JsonMembers.dumps, List.mem_cons, List.mem_append] at hx
      rcases hx with rfl | hh | rfl | rfl | hh
      · decide
      · exact escapeChars_no_nl k.data x hh
      · decide
      · decide
      · exact jdumps_no_nl v hwf.1 x hh
  | .cons k v (.cons k2 v2 t), hwf, x, hx => by
      simp only [JsonMembers.wf, Bool.and_eq_true] at hwf
      simp only [JsonMembers.dumps, List.mem_cons, List.mem_append] at hx
      rcases hx with (rfl | hh | rfl | rfl | hh) | rfl | hh
      · decide
      · exact escapeChars_no_nl k.data x hh
      · decide
      · decide
      · exact jdumps_no_nl v hwf.1 x hh
      · decide
      · exact jmdumps_no_nl (.cons k2 v2 t)
          (by simp only [JsonMembers.wf, Bool.and_eq_true]; exact hwf.2) x hh
end

/-! ## Protocol constants (src/constants.py) -/

def AES_IV : List Nat := "0102030405060708".data.map Char.toNat

def WS_TYPE_ACTION : String := "action"

def WS_TYPE_ACK : String := "ack"

def WS_ACTION_VERSION_NEGOTIATION : String := "versionNegotiation"

def WS_ACTION_SEND_REQUEST : String := "sendRequest"

def WS_ACTION_STATUS : String := "status"

def STATUS_OK : Int := 1

def STATUS_ERROR : Int := 2

def STATUS_USER_REFUSE : Int := 3

def PROTOCOL_VERSION : Int := 1

/-! ## WebSocket control-frame codec (src/protocol.py)

A frame is the text `type:id:name?payload`.  `WSMessage.parse` models
`MESSAGE_PATTERN.match` (the regex `^(\w+):(\d+):(\w+)(\?(.*))?$`) followed
by `json.loads` of group 5.  Python regex facts reflected here: `re.match`
anchors at the start; `$` matches at the end of the string or just before a
single trailing newline (`stripTrailingNl`); `.` never matches a newline
(the `rest.any` newline test); `\w` and `\d` are modelled as their ASCII
classes (no frame built by this protocol uses non-ASCII word characters);
greedy `\w+`/`\d+` followed by a character outside the class is exact
maximal munch, since backtracking to a shorter capture leaves a class
character where `:`, `?` or the end is required. -/

structure WSMessage where
  type : String
  id : Int
  name : String
  payload : Option Json
deriving DecidableEq, Repr

def WSMessage.serialize (m : WSMessage) (new_id : Option Int) : String :=
  let msg_id := new_id.getD m.id
  let result := m.type ++ ":" ++ intLit msg_id ++ ":" ++ m.name
  match m.payload with
  | none => result
  | some p => result ++ "?" ++ ⟨Json.dumps p⟩

/-- `$` semantics of Python `re`: a match may end just before one trailing
newline. -/
def stripTrailingNl (cs : List Char) : List Char :=
  if cs.getLast? = some '\n' then cs.dropLast else cs

/-- The regex split `(\w+):(\d+):(\w+)(\?(.*))?$` on newline-stripped text:
returns the three captured runs and, when the `?` branch is taken, the
payload text (group 5). -/
def wsParseCore (cs : List Char) :
    Option (List Char × List Char × List Char × Option (List Char)) :=
  let t := cs.takeWhile isWordChar
  if t = [] then none else
  match cs.dropWhile isWordChar with
  | ':' :: r1 =>
    let d := r1.takeWhile Char.isDigit
    if d = [] then none else
    (match r1.dropWhile Char.isDigit with
     | ':' :: r2 =>
       let n := r2.takeWhile isWordChar
       if n = [] then none else
       (match r2.dropWhile isWordChar with
        | [] => some (t, d, n, none)
        | '?' :: rest =>
          if rest.any (fun c => c == '\n') then none else some (t, d, n, some rest)
        | _ => none)
     | _ => none)
  | _ => none

def WSMessage.parse (text : String) : Option WSMessage :=
  match wsParseCore (stripTrailingNl text.data) with
  | none => none
  | some (t, d, n, pay) =>
    match pay with
    | none => some ⟨⟨t⟩, (digitsVal d : Int), ⟨n⟩, none⟩
    | some rest =>
      if rest = [] then some ⟨⟨t⟩, (digitsVal d : Int), ⟨n⟩, none⟩
      else
        match jsonLoads ⟨rest⟩ with
        | none => none
        | some j => some ⟨⟨t⟩, (digitsVal d : Int), ⟨n⟩, some j⟩

def WSMessage.make_ack (m : WSMessage) (response_payload : Option Json) : WSMessage :=
  ⟨WS_TYPE_ACK, m.id, m.name, response_payload⟩

def make_version_negotiation (msg_id : Int) (version : Json) : WSMessage :=
  ⟨WS_TYPE_ACTION, msg_id, "versionNegotiation",
    some (.obj (.cons "version" version
      (.cons "versions" (.arr (.cons version .nil)) .nil)))⟩

def make_send_request (msg_id : Int) (request_dict : Json) : WSMessage :=
  ⟨WS_TYPE_ACTION, msg_id, "sendRequest", some request_dict⟩

def make_status (msg_id : Int) (task_id : Json) (status_type : Int)
    (reason : String) : WSMessage :=
  ⟨WS_TYPE_ACTION, msg_id, WS_ACTION_STATUS,
    some (.obj (.cons "taskId" task_id
      (.cons "id" task_id
      (.cons "type" (.int status_type)
      (.cons "reason" (.str reason) .nil)))))⟩

-- Sanity checks of the codec on concrete frames.
example : WSMessage.parse "action:17:sendRequest" = some ⟨"action", 17, "sendRequest", none⟩ := rfl

example : WSMessage.parse "ack:0:status?\x7b\"type\":1\x7d" =
    some ⟨"ack", 0, "status", some (.obj (.cons "type" (.int 1) .nil))⟩ := rfl

example : WSMessage.parse "action::x" = none := rfl

example : WSMessage.parse "action:3:x?\x7b" = none := rfl

/-! Maximal-munch lemmas for the regex split, and the serializer's shape. -/

theorem wsParseCore_plain (t d n : List Char)
    (ht : t ≠ []) (htw : ∀ c ∈ t, isWordChar c = true)
    (hd : d ≠ []) (hdw : ∀ c ∈ d, c.isDigit = true)
    (hn : n ≠ []) (hnw : ∀ c ∈ n, isWordChar c = true) :
    wsParseCore (t ++ ':' :: (d ++ ':' :: n)) = some (t, d, n, none) := by
  have h1 : (t ++ ':' :: (d ++ ':' :: n)).takeWhile isWordChar = t :=
    takeWhile_append_of _ _ _ htw (Or.inr ⟨':', _, rfl, by decide⟩)
  have h2 : (t ++ ':' :: (d ++ ':' :: n)).dropWhile isWordChar = ':' :: (d ++ ':' :: n) :=
    dropWhile_append_of _ _ _ htw (Or.inr ⟨':', _, rfl, by decide⟩)
  have h3 : (d ++ ':' :: n).takeWhile Char.isDigit = d :=
    takeWhile_append_of _ _ _ hdw (Or.inr ⟨':', _, rfl, by decide⟩)
  have h4 : (d ++ ':' :: n).dropWhile Char.isDigit = ':' :: n :=
    dropWhile_append_of _ _ _ hdw (Or.inr ⟨':', _, rfl, by decide⟩)
  have h5 : n.takeWhile isWordChar = n := List.takeWhile_eq_self_iff.2 hnw
  have h6 : n.dropWhile isWordChar = [] := List.dropWhile_eq_nil_iff.2 hnw
  simp only [wsParseCore, h1, h2]
  rw [if_neg ht]
  simp only [h3, h4]
  rw [if_neg hd]
  simp only [h5, h6]
  rw [if_neg hn]

theorem wsParseCore_payload (t d n P : List Char)
    (ht : t ≠ []) (htw : ∀ c ∈ t, isWordChar c = true)
    (hd : d ≠ []) (hdw : ∀ c ∈ d, c.isDigit = true)
    (hn : n ≠ []) (hnw : ∀ c ∈ n, isWordChar c = true)
    (hP : P.any (fun c => c == '\n') = false) :
    wsParseCore (t ++ ':' :: (d ++ ':' :: (n ++ '?' :: P))) = some (t, d, n, some P) := by
  have h1 : (t ++ ':' :: (d ++ ':' :: (n ++ '?' :: P))).takeWhile isWordChar = t :=
    takeWhile_append_of _ _ _ htw (Or.inr ⟨':', _, rfl, by decide⟩)
  have h2 : (t ++ ':' :: (d ++ ':' :: (n ++ '?' :: P))).dropWhile isWordChar =
      ':' :: (d ++ ':' :: (n ++ '?' :: P)) :=
    dropWhile_append_of _ _ _ htw (Or.inr ⟨':', _, rfl, by decide⟩)
  have h3 : (d ++ ':' :: (n ++ '?' :: P)).takeWhile Char.isDigit = d :=
    takeWhile_append_of _ _ _ hdw (Or.inr ⟨':', _, rfl, by decide⟩)
  have h4 : (d ++ ':' :: (n ++ '?' :: P)).dropWhile Char.isDigit = ':' :: (n ++ '?' :: P) :=
    dropWhile_append_of _ _ _ hdw (Or.inr ⟨':', _, rfl, by decide⟩)
  have h5 : (n ++ '?' :: P).takeWhile isWordChar = n :=
    takeWhile_append_of _ _ _ hnw (Or.inr ⟨'?', _, rfl, by decide⟩)
  have h6 : (n ++ '?' :: P).dropWhile isWordChar = '?' :: P :=
    dropWhile_append_of _ _ _ hnw (Or.inr ⟨'?', _, rfl, by decide⟩)
  simp only [wsParseCore, h1, h2]
  rw [if_neg ht]
  simp only [h3, h4]
  rw [if_neg hd]
  simp only [h5, h6]
  rw [if_neg hn, hP]
  simp only [Bool.false_eq_true, if_false]

theorem stripTrailingNl_of_no_nl {cs : List Char} (h : ∀ x ∈ cs, x ≠ '\n') :
    stripTrailingNl cs = cs := by
  rw [stripTrailingNl, if_neg]
  intro hlast
  exact h '\n' (List.mem_of_mem_getLast? (Option.mem_def.mpr hlast)) rfl

theorem serialize_data (m : WSMessage) :
    (m.serialize none).data =
      m.type.data ++ ':' :: ((intLit m.id).data ++ ':' :: (m.name.data ++
        (match m.payload with | none => [] | some p => '?' :: Json.dumps p))) := by
  have hc : (":" : String).data = [':'] := rfl
  have hq : ("?" : String).data = ['?'] := rfl
  cases hp : m.payload with
  | none =>
    simp only [WSMessage.serialize, hp, Option.getD_none, String.data_append, hc,
      List.append_assoc, List.cons_append, List.nil_append, List.append_nil]
  | some p =>
    simp only [WSMessage.serialize, hp, Option.getD_none, String.data_append, hc, hq,
      List.append_assoc, List.cons_append, List.nil_append]

/-- C2: for every valid control frame `f` (type is `"action"` or `"ack"`, id
is a non-negative integer, name is a non-empty string of ASCII letters and
digits, payload is absent or a JSON object), `WSMessage.parse (f.serialize)`
returns `f` itself.  The model keeps object member order, so equality of the
payload is plain equality; `Json.wf` only asks that numeric literals be
grammar-valid number tokens, which holds of everything `json.dumps` emits. -/
theorem C2_serialize_parse_roundtrip (f : WSMessage)
    (htype : f.type = "action" ∨ f.type = "ack")
    (hid : 0 ≤ f.id)
    (hname : f.name.data ≠ [] ∧ ∀ c ∈ f.name.data, (c.isAlpha || c.isDigit) = true)
    (hpayload : f.payload = none ∨
      ∃ ms, f.payload = some (Json.obj ms) ∧ (Json.obj ms).wf = true) :
    WSMessage.parse (f.serialize none) = some f := by
  have htw : ∀ c ∈ f.type.data, isWordChar c = true := by
    rcases htype with h | h <;> rw [h] <;> decide
  have htne : f.type.data ≠ [] := by
    rcases htype with h | h <;> rw [h] <;> decide
  have hil : (intLit f.id).data = natToChars f.id.natAbs := by
    rw [intLit, if_neg (by omega)]
  have hdw : ∀ c ∈ (intLit f.id).data, c.isDigit = true := by
    rw [hil]; exact natToChars_digits _
  have hdne : (intLit f.id).data ≠ [] := by
    rw [hil]; exact natToChars_ne_nil _
  have hnw : ∀ c ∈ f.name.data, isWordChar c = true := fun c hc => by
    simp only [isWordChar, hname.2 c hc, Bool.true_or]
  rcases hpayload with hpn | ⟨ms, hps, hwf⟩
  · have hsd : (f.serialize none).data =
        f.type.data ++ ':' :: ((intLit f.id).data ++ ':' :: f.name.data) := by
      rw [serialize_data f, hpn]
      simp
    have hnl : ∀ x ∈ f.type.data ++ ':' :: ((intLit f.id).data ++ ':' :: f.name.data),
        x ≠ '\n' := by
      intro x hx
      simp only [List.mem_append, List.mem_cons] at hx
      rcases hx with hx | rfl | hx | rfl | hx
      · have hw := htw x hx; intro hc; rw [hc] at hw; exact absurd hw (by decide)
      · decide
      · have hw := hdw x hx; intro hc; rw [hc] at hw; exact absurd hw (by decide)
      · decide
      · have hw := hnw x hx; intro hc; rw [hc] at hw; exact absurd hw (by decide)
    rw [WSMessage.parse, hsd, stripTrailingNl_of_no_nl hnl,
      wsParseCore_plain _ _ _ htne htw hdne hdw hname.1 hnw]
    dsimp only
    rw [hil, digitsVal_natToChars, Int.natAbs_of_nonneg hid, ← hpn]
  · have hsd : (f.serialize none).data =
        f.type.data ++ ':' :: ((intLit f.id).data ++ ':' ::
          (f.name.data ++ '?' :: Json.dumps (Json.obj ms))) := by
      rw [serialize_data f, hps]
    have hjnl : ∀ x ∈ Json.dumps (Json.obj ms), x ≠ '\n' :=
      jdumps_no_nl (Json.obj ms) hwf
    have hnl : ∀ x ∈ f.type.data ++ ':' :: ((intLit f.id).data ++ ':' ::
        (f.name.data ++ '?' :: Json.dumps (Json.obj ms))), x ≠ '\n' := by
      intro x hx
      simp only [List.mem_append, List.mem_cons] at hx
      rcases hx with hx | rfl | hx | rfl | hx | rfl | hx
      · have hw := htw x hx; intro hc; rw [hc] at hw; exact absurd hw (by decide)
      · decide
      · have hw := hdw x hx; intro hc; rw [hc] at hw; exact absurd hw (by decide)
      · decide
      · have hw := hnw x hx; intro hc; rw [hc] at hw; exact absurd hw (by decide)
      · decide
      · exact hjnl x hx
    have hP : (Json.dumps (Json.obj ms)).any (fun c => c == '\n') = false := by
      cases hany : (Json.dumps (Json.obj ms)).any (fun c => c == '\n') with
      | false => rfl
      | true =>
        rw [List.any_eq_true] at hany
        obtain ⟨x, hx, hxe⟩ := hany
        exact absurd (by simpa using hxe) (hjnl x hx)
    have hne : Json.dumps (Json.obj ms) ≠ [] := by
      cases ms <;> simp [Json.dumps]
    rw [WSMessage.parse, hsd, stripTrailingNl_of_no_nl hnl,
      wsParseCore_payload _ _ _ _ htne htw hdne hdw hname.1 hnw hP]
    dsimp only
    rw [if_neg hne, jsonLoads_dumps (Json.obj ms) hwf]
    dsimp only
    rw [hil, digitsVal_natToChars, Int.natAbs_of_nonneg hid, ← hps]

/-- Witness for C2 at a concrete frame with a JSON-object payload. -/
theorem C2_witness :
    WSMessage.parse (WSMessage.serialize
        ⟨"action", 7, "sendRequest", some (Json.obj (JsonMembers.cons "taskId"
          (Json.str "42") (JsonMembers.cons "fileCount" (Json.int 2)
          JsonMembers.nil)))⟩ none) =
      some ⟨"action", 7, "sendRequest", some (Json.obj (JsonMembers.cons "taskId"
          (Json.str "42") (JsonMembers.cons "fileCount" (Json.int 2)
          JsonMembers.nil)))⟩ :=
  C2_serialize_parse_roundtrip _ (Or.inl rfl) (by decide) ⟨by decide, by decide⟩
    (Or.inr ⟨_, rfl, by decide⟩)

/-! ## What `WSMessage.parse` accepts (for C8)

`wsGrammar` is the language the code's regex-plus-`json.loads` pipeline
accepts, written as an existential decomposition of the (newline-stripped)
input.  Note where it is wider than the spec's grammar: the type run is any
non-empty `\w+` run (not only `action`/`ack`), name runs may contain
underscores, the payload may be any JSON value (not only an object), and a
single trailing newline is tolerated (`$` semantics of `re`). -/

def wsGrammar (text : String) : Prop :=
  ∃ T D N rest,
    stripTrailingNl text.data = T ++ ':' :: (D ++ ':' :: (N ++ rest)) ∧
    T ≠ [] ∧ (∀ c ∈ T, isWordChar c = true) ∧
    D ≠ [] ∧ (∀ c ∈ D, c.isDigit = true) ∧
    N ≠ [] ∧ (∀ c ∈ N, isWordChar c = true) ∧
    (rest = [] ∨ ∃ P, rest = '?' :: P ∧ (∀ c ∈ P, c ≠ '\n') ∧
      (P = [] ∨ jsonLoads ⟨P⟩ ≠ none))

theorem wsGrammar_parse_ne_none {text : String} (hg : wsGrammar text) :
    WSMessage.parse text ≠ none := by
  obtain ⟨T, D, N, rest, hsplit, hT, hTw, hD, hDw, hN, hNw, hrest⟩ := hg
  rcases hrest with rfl | ⟨P, rfl, hPnl, hPj⟩
  · rw [List.append_nil] at hsplit
    rw [WSMessage.parse, hsplit, wsParseCore_plain _ _ _ hT hTw hD hDw hN hNw]
    simp
  · have hP : P.any (fun c => c == '\n') = false := by
      rw [List.any_eq_false]
      intro x hx
      simpa using hPnl x hx
    rw [WSMessage.parse, hsplit, wsParseCore_payload _ _ _ _ hT hTw hD hDw hN hNw hP]
    dsimp only
    rcases hPj with rfl | hjl
    · simp
    · rcases Option.ne_none_iff_exists'.1 hjl with ⟨j, hj⟩
      rcases hPe : P with _ | ⟨c, cs⟩
      · simp
      · rw [← hPe, if_neg (by rw [hPe]; exact List.cons_ne_nil c cs), hj]
        simp

/-- The text that group 4 of the regex contributed: empty, or `?` plus the
payload text. -/
def payTail : Option (List Char) -> List Char
  | none => []
  | some P => '?' :: P

theorem wsParseCore_some_inv {cs t d n : List Char} {pay : Option (List Char)}
    (h : wsParseCore cs = some (t, d, n, pay)) :
    cs = t ++ ':' :: (d ++ ':' :: (n ++ payTail pay)) ∧
      t ≠ [] ∧ (∀ c ∈ t, isWordChar c = true) ∧
      d ≠ [] ∧ (∀ c ∈ d, c.isDigit = true) ∧
      n ≠ [] ∧ (∀ c ∈ n, isWordChar c = true) ∧
      (∀ P, pay = some P → ∀ c ∈ P, c ≠ '\n') := by
  rw [wsParseCore] at h
  by_cases h1 : cs.takeWhile isWordChar = []
  · rw [if_pos h1] at h; exact absurd h (by simp)
  rw [if_neg h1] at h
  split at h <;>
    [skip; exact absurd h (by simp)]
  next r1 heq1 =>
  by_cases h2 : r1.takeWhile Char.isDigit = []
  · rw [if_pos h2] at h; exact absurd h (by simp)
  rw [if_neg h2] at h
  split at h <;>
    [skip; exact absurd h (by simp)]
  next r2 heq2 =>
  by_cases h3 : r2.takeWhile isWordChar = []
  · rw [if_pos h3] at h; exact absurd h (by simp)
  rw [if_neg h3] at h
  split at h
  · -- end of input after the name run
    next heq3 =>
    simp only [Option.some.injEq, Prod.mk.injEq] at h
    obtain ⟨rfl, rfl, rfl, rfl⟩ := h
    refine ⟨?_, h1, fun c hc => List.mem_takeWhile_imp hc, h2,
      fun c hc => List.mem_takeWhile_imp hc, h3,
      fun c hc => List.mem_takeWhile_imp hc, by intro P hP; cases hP⟩
    simp only [payTail]
    conv_lhs => rw [← List.takeWhile_append_dropWhile isWordChar cs]
    rw [heq1]
    conv_lhs => rw [← List.takeWhile_append_dropWhile Char.isDigit r1]
    rw [heq2]
    conv_lhs => rw [← List.takeWhile_append_dropWhile isWordChar r2]
    rw [heq3, List.append_nil]
  · -- a '?' and a payload text follow the name run
    next rest heq3 =>
    split at h
    · exact absurd h (by simp)
    next hany =>
    simp only [Option.some.injEq, Prod.mk.injEq] at h
    obtain ⟨rfl, rfl, rfl, rfl⟩ := h
    have hnl : rest.any (fun c => c == '\n') = false := by
      cases hae : rest.any (fun c => c == '\n') with
      | false => rfl
      | true => exact absurd hae hany
    refine ⟨?_, h1, fun c hc => List.mem_takeWhile_imp hc, h2,
      fun c hc => List.mem_takeWhile_imp hc, h3,
      fun c hc => List.mem_takeWhile_imp hc, ?_⟩
    · simp only [payTail]
      conv_lhs => rw [← List.takeWhile_append_dropWhile isWordChar cs]
      rw [heq1]
      conv_lhs => rw [← List.takeWhile_append_dropWhile Char.isDigit r1]
      rw [heq2]
      conv_lhs => rw [← List.takeWhile_append_dropWhile isWordChar r2]
      rw [heq3]
    · intro P hP c hc
      obtain rfl : rest = P := Option.some.inj hP
      simpa using List.any_eq_false.1 hnl c hc
  · -- any other character after the name run: no match
    exact absurd h (by simp)

theorem parse_ne_none_wsGrammar {text : String} (h : WSMessage.parse text ≠ none) :
    wsGrammar text := by
  rw [WSMessage.parse] at h
  cases hcore : wsParseCore (stripTrailingNl text.data) with
  | none => rw [hcore] at h; exact absurd rfl h
  | some q =>
    obtain ⟨t, d, n, pay⟩ := q
    rw [hcore] at h
    obtain ⟨hsplit, hT, hTw, hD, hDw, hN, hNw, hPnl⟩ := wsParseCore_some_inv hcore
    cases pay with
    | none =>
      simp only [payTail] at hsplit
      exact ⟨t, d, n, [], hsplit, hT, hTw, hD, hDw, hN, hNw, Or.inl rfl⟩
    | some P =>
      dsimp only at h
      simp only [payTail] at hsplit
      by_cases hPe : P = []
      · exact ⟨t, d, n, '?' :: P, hsplit, hT, hTw, hD, hDw, hN, hNw,
          Or.inr ⟨P, rfl, hPnl P rfl, Or.inl hPe⟩⟩
      · rw [if_neg hPe] at h
        cases hj : jsonLoads ⟨P⟩ with
        | none => rw [hj] at h; exact absurd rfl h
        | some j =>
          exact ⟨t, d, n, '?' :: P, hsplit, hT, hTw, hD, hDw, hN, hNw,
            Or.inr ⟨P, rfl, hPnl P rfl, Or.inr (by rw [hj]; simp)⟩⟩

/-- C8 (corrected): `WSMessage.parse` returns `none` exactly on the inputs
outside the grammar the code's regex-plus-`json.loads` pipeline accepts
(`wsGrammar`), and, being a total function of its input, it never raises.
The claim's grammar is narrower than the code's in four ways, each shown
accepted by `C8_counterexample`: the type run is any non-empty `\w+` run,
not only `action`/`ack`; the name run may contain underscores; the payload
may be any JSON value, not only an object; and a single trailing newline is
tolerated (Python `$`).  Within `wsGrammar`, a frame whose payload text is
present and non-empty must be valid JSON, as the claim states. -/
theorem C8_parse_none_iff (text : String) :
    WSMessage.parse text = none ↔ ¬ wsGrammar text := by
  constructor
  · intro hnone hg
    exact wsGrammar_parse_ne_none hg hnone
  · intro hng
    by_contra hne
    exact hng (parse_ne_none_wsGrammar hne)

/-- C8 counterexample: a frame whose type is neither `action` nor `ack`,
whose name contains an underscore, whose payload is a bare number and which
carries a trailing newline is parsed successfully, not rejected. -/
theorem C8_counterexample :
    WSMessage.parse "foo:0:bar_baz?17\n" =
      some ⟨"foo", 0, "bar_baz", some (Json.int 17)⟩ := rfl

/-! ## Data models (src/models.py)

`json.loads` builds Python dicts, where a repeated key keeps its last
occurrence; `JsonMembers.find?` above therefore prefers the last binding.
Dataclass fields that Python annotates as `str`/`int` but never validates
are modelled as `Json`: `from_dict` copies whatever JSON values the payload
carries.  Python `None` is the same object as JSON `null`, so an
`Optional` field holds `Json.null` when absent. -/

structure SendRequest where
  task_id : Json
  sender_id : Json
  sender_name : Json
  file_name : Json
  file_count : Json
  total_size : Json
  mime_type : Json
  text_content : Json
  thumbnail : Json
deriving DecidableEq, Repr

/-- `d.get("taskId") or d.get("id", "")` : Python `or` takes the first
operand when it is truthy, otherwise the second. -/
def taskIdOf (ms : JsonMembers) : Json :=
  if jsonTruthy (ms.getD "taskId" .null) then ms.getD "taskId" .null
  else ms.getD "id" (.str "")

def SendRequest.from_dict (d : Json) : Except PyError SendRequest :=
  match d with
  | .obj ms =>
    .ok ⟨taskIdOf ms,
      ms.getD "senderId" (.str ""),
      ms.getD "senderName" (.str "Unknown"),
      ms.getD "fileName" (.str ""),
      ms.getD "fileCount" (.int 1),
      ms.getD "totalSize" (.int 0),
      ms.getD "mimeType" (.str "*/*"),
      ms.getD "catShareText" .null,
      ms.getD "thumbnail" .null⟩
  | _ => .error .attributeError

def SendRequest.to_dict (r : SendRequest) : Json :=
  .obj (.cons "taskId" r.task_id (.cons "id" r.task_id
    (.cons "senderId" r.sender_id (.cons "senderName" r.sender_name
    (.cons "fileName" r.file_name (.cons "mimeType" r.mime_type
    (.cons "fileCount" r.file_count (.cons "totalSize" r.total_size
    (if r.text_content ≠ .null
      then .cons "catShareText" r.text_content
        (if r.thumbnail ≠ .null then .cons "thumbnail" r.thumbnail .nil else .nil)
      else (if r.thumbnail ≠ .null then .cons "thumbnail" r.thumbnail .nil
        else .nil))))))))))

structure TransferStatus where
  type : Json
  reason : Json
  task_id : Json
deriving DecidableEq, Repr

def TransferStatus.from_dict (d : Json) : Except PyError TransferStatus :=
  match d with
  | .obj ms => .ok ⟨ms.getD "type" (.int 0), ms.getD "reason" (.str ""), taskIdOf ms⟩
  | _ => .error .attributeError

def TransferStatus.to_dict (s : TransferStatus) : Json :=
  .obj (.cons "taskId" s.task_id (.cons "id" s.task_id
    (.cons "type" s.type (.cons "reason" s.reason .nil))))

/-- Python `==` between a decoded JSON value and an `int` literal: `bool`
is a subtype of `int` (`True == 1`), numbers compare by value.  Model
restriction: a fractional literal such as `3.0` is treated as unequal,
where Python would compare `3.0 == 3` as true; no frame this protocol
builds carries such a literal. -/
def jsonEqInt (j : Json) (n : Int) : Bool :=
  match j with
  | .bool b => (if b then (1 : Int) else 0) == n
  | .num lit =>
    match intLitVal? lit with
    | some k => k == n
    | none => false
  | _ => false

/-- Python `==` between a decoded JSON value and a `str` literal. -/
def jsonEqStr (j : Json) (s : String) : Bool :=
  match j with
  | .str t => t == s
  | _ => false

/-- Python `str()` as used in f-string interpolation.  Model restriction:
containers are rendered in their JSON form, where Python `repr` would use
single quotes; no claim depends on those strings. -/
def pyStr : Json → String
  | .str s => s
  | .num lit => lit
  | .bool true => "True"
  | .bool false => "False"
  | .null => "None"
  | .arr xs => ⟨Json.dumps (.arr xs)⟩
  | .obj ms => ⟨Json.dumps (.obj ms)⟩

/-- Python `min(v, PROTOCOL_VERSION)` on a JSON value `v`: ints and bools
(whose numeric values are 0/1) order against the int and `min` returns the
smaller original object, raising `TypeError` for any other type.  Model
restriction: a fractional numeric literal also raises here, where Python
would compare floats; no protocol frame carries one. -/
def pyMinVersion (v : Json) (proto : Int) : Except PyError Json :=
  match v with
  | .bool b => if (if b then (1 : Int) else 0) ≤ proto then .ok (.bool b) else .ok (.int proto)
  | .num lit =>
    match intLitVal? lit with
    | some k => if k ≤ proto then .ok (.num lit) else .ok (.int proto)
    | none => .error .typeError
  | _ => .error .typeError

/-! ## Receiver state machine (src/src/mtapy/receiver.py)

`on_ws_message` is a generator; the driver drains it, so a call is modelled
as the full list of yielded `(event, response)` pairs together with the
mutated object.  Every `raise` in the Python body happens before the
branch's first `yield` and before any attribute mutation, so an exception
is modelled as `Except.error` with no outputs and no state change. -/

inductive ReceiverState
  | WAITING_VERSION
  | WAITING_SEND_REQUEST
  | WAITING_USER_ACCEPT
  | TRANSFERRING
  | COMPLETED
  | FAILED
deriving DecidableEq, Repr

inductive ReceiverEvent
  | VersionNegotiated (version : Json) (thread_limit : Int)
  | SendRequestReceived (request : SendRequest) (thumbnail_path : Json)
  | TransferAccepted (task_id : Json) (download_url : String)
  | TextReceived (text : Json) (task_id : Json)
  | StatusReceived (status : TransferStatus)
  | ProtocolError (message : String)
deriving DecidableEq, Repr

structure ReceiverProtocol where
  server_host : String
  server_port : Int
  state : ReceiverState
  version : Json
  thread_limit : Int
  _send_request : Option SendRequest
  _msg_id_counter : Int
deriving DecidableEq, Repr

def ReceiverProtocol.init (server_host : String) (server_port : Int) : ReceiverProtocol :=
  ⟨server_host, server_port, .WAITING_VERSION, Json.int PROTOCOL_VERSION, 5, none, 99⟩

def ReceiverProtocol._next_msg_id (r : ReceiverProtocol) : Int × ReceiverProtocol :=
  (r._msg_id_counter + 1, { r with _msg_id_counter := r._msg_id_counter + 1 })

def ReceiverProtocol.on_ws_message (r : ReceiverProtocol) (msg : WSMessage) :
    Except PyError (ReceiverProtocol × List (Option ReceiverEvent × Option WSMessage)) :=
  if msg.type ≠ WS_TYPE_ACTION then .ok (r, [])
  else
    let name_lower := strLower msg.name
    if name_lower = strLower WS_ACTION_VERSION_NEGOTIATION then
      let inv : Except PyError Json :=
        match msg.payload with
        | none => .ok (Json.int 1)
        | some p =>
          if jsonTruthy p then
            match p with
            | .obj ms => .ok (ms.getD "version" (Json.int 1))
            | _ => .error .attributeError
          else .ok (Json.int 1)
      match inv with
      | .error e => .error e
      | .ok in_version =>
        match pyMinVersion in_version PROTOCOL_VERSION with
        | .error e => .error e
        | .ok newv =>
          let response_payload : Json :=
            .obj (.cons "version" newv (.cons "threadLimit" (Json.int r.thread_limit) .nil))
          .ok ({ r with state := .WAITING_SEND_REQUEST, version := newv },
            [(some (.VersionNegotiated newv r.thread_limit),
              some (msg.make_ack (some response_payload)))])
    else if name_lower = strLower WS_ACTION_SEND_REQUEST then
      match msg.payload with
      | none =>
        .ok (r, [(some (.ProtocolError "sendRequest has no payload"),
          some (msg.make_ack none))])
      | some p =>
        match SendRequest.from_dict p with
        | .error e => .error e
        | .ok req =>
          let r1 := { r with _send_request := some req, state := .WAITING_USER_ACCEPT }
          if req.text_content ≠ .null then
            .ok (r1, [(some (.TextReceived req.text_content req.task_id),
              some (msg.make_ack none))])
          else
            .ok (r1, [(some (.SendRequestReceived req req.thumbnail),
              some (msg.make_ack none))])
    else if name_lower = strLower WS_ACTION_STATUS then
      match msg.payload with
      | none =>
        .ok (r, [(some (.ProtocolError "status has no payload"),
          some (msg.make_ack none))])
      | some p =>
        match TransferStatus.from_dict p with
        | .error e => .error e
        | .ok status =>
          let r1 :=
            if jsonEqInt status.type STATUS_USER_REFUSE &&
                jsonEqStr status.reason "user refuse"
              then { r with state := .FAILED } else r
          .ok (r1, [(some (.StatusReceived status), some (msg.make_ack none))])
    else
      .ok (r, [(none, some (msg.make_ack none))])

def ReceiverProtocol.accept_transfer (r : ReceiverProtocol) :
    ReceiverProtocol × (Option ReceiverEvent × Option WSMessage) :=
  match r._send_request with
  | none => (r, (none, none))
  | some req =>
    let download_url := "https://" ++ r.server_host ++ ":" ++ intLit r.server_port ++
      "/download?taskId=" ++ pyStr req.task_id
    ({ r with state := .TRANSFERRING },
      (some (.TransferAccepted req.task_id download_url), none))

def ReceiverProtocol.reject_transfer (r : ReceiverProtocol) :
    ReceiverProtocol × WSMessage :=
  let task_id := match r._send_request with | some req => req.task_id | none => Json.str ""
  let r1 := { r with state := .FAILED }
  let p := r1._next_msg_id
  (p.2, make_status p.1 task_id STATUS_USER_REFUSE "user refuse")

def ReceiverProtocol.send_ok (r : ReceiverProtocol) : ReceiverProtocol × WSMessage :=
  let task_id := match r._send_request with | some req => req.task_id | none => Json.str ""
  let r1 := { r with state := .COMPLETED }
  let p := r1._next_msg_id
  (p.2, make_status p.1 task_id STATUS_OK "ok")

/-! ## Sender state machine (src/src/mtapy/sender.py)

Same conventions as the receiver: the generator is drained, an exception is
`Except.error`.  Two partial effects are lost in the error case and
documented here rather than modelled: in the `versionNegotiation`-ack
branch the write `_version_ack_received = True` precedes the possible
`AttributeError`/`TypeError`, and the writes to `version` and the flag
precede the possible `StopIteration` from `_build_send_request`; that flag
and partially-updated version are never read on any subsequent path, so no
observable behaviour depends on them.  The random `sender_id`/`task_id`
(`generate_sender_id`/`generate_task_id`) are inputs of `SenderProtocol.init`. -/

structure FileSpec where
  name : String
  size : Int
  mime_type : String
  text_content : Option String
deriving DecidableEq, Repr

inductive SenderState
  | INITIAL
  | SENT_VERSION
  | SENT_REQUEST
  | WAITING_DOWNLOAD
  | TRANSFERRING
  | COMPLETED
  | REJECTED
  | FAILED
deriving DecidableEq, Repr

inductive SenderEvent
  | HandshakeStarted
  | VersionAcked (version : Json)
  | RequestSent (task_id : String)
  | TransferStarted (task_id : String)
  | TransferCompleted (task_id : String)
  | TransferRejected (reason : Json)
  | SenderProtocolError (message : String)
deriving DecidableEq, Repr

/-- Numeric value of a JSON value for `min`/`==`, where Python treats
`bool` as an int; `none` for non-numbers (and, as a documented model
restriction, for fractional literals). -/
def jsonNumVal? : Json → Option Int
  | .bool b => some (if b then 1 else 0)
  | .num lit => intLitVal? lit
  | _ => none

/-- Python `min(a, b)`: the smaller original object, `a` on ties;
`TypeError` when either side is not number-like. -/
def pyMin (a b : Json) : Except PyError Json :=
  match jsonNumVal? a, jsonNumVal? b with
  | some x, some y => if x ≤ y then .ok a else .ok b
  | _, _ => .error .typeError

structure SenderProtocol where
  device_name : String
  sender_id : String
  task_id : String
  state : SenderState
  version : Json
  _files : List FileSpec
  _msg_id : Int
  _version_ack_received : Bool
  _request_ack_received : Bool
deriving DecidableEq, Repr

def SenderProtocol.init (device_name sender_id task_id : String) : SenderProtocol :=
  ⟨device_name, sender_id, task_id, .INITIAL, Json.int PROTOCOL_VERSION, [], 0, false, false⟩

def SenderProtocol.set_files (s : SenderProtocol) (files : List FileSpec) : SenderProtocol :=
  { s with _files := files }

/-- Returns the current id, then increments (unlike the receiver, which
increments first). -/
def SenderProtocol._next_msg_id (s : SenderProtocol) : Int × SenderProtocol :=
  (s._msg_id, { s with _msg_id := s._msg_id + 1 })

def SenderProtocol._build_send_request (s : SenderProtocol) : Except PyError SendRequest :=
  let total_size : Int := (s._files.map (·.size)).sum
  let file_count := s._files.length
  let mime? : Except PyError String :=
    if file_count = 1 then
      match s._files with
      | f :: _ => .ok f.mime_type
      | [] => .error .stopIteration
    else
      let mime_types := (s._files.map (·.mime_type)).dedup
      if mime_types.length > 1 then .ok "*/*"
      else
        match mime_types with
        | m :: _ => .ok m
        | [] => .error .stopIteration
  match mime? with
  | .error e => .error e
  | .ok mime_type =>
    let text_content : Option String :=
      match s._files with
      | [f] => f.text_content
      | _ => none
    .ok ⟨.str s.task_id, .str s.sender_id, .str s.device_name,
      .str (match s._files with | f :: _ => f.name | [] => ""),
      .int file_count, .int total_size, .str mime_type,
      (match text_content with | some t => .str t | none => .null), .null⟩

def SenderProtocol.start_handshake (s : SenderProtocol) : SenderProtocol × List WSMessage :=
  let s1 := { s with state := SenderState.SENT_VERSION }
  let p := s1._next_msg_id
  (p.2, [make_version_negotiation p.1 s.version])

def SenderProtocol.on_ws_message (s : SenderProtocol) (msg : WSMessage) :
    Except PyError (SenderProtocol × List (Option SenderEvent × Option WSMessage)) :=
  if msg.type = WS_TYPE_ACK then
    let name_lower := strLower msg.name
    if name_lower = strLower WS_ACTION_VERSION_NEGOTIATION then
      let acked : Except PyError Json :=
        match msg.payload with
        | none => .ok (Json.int 1)
        | some p =>
          if jsonTruthy p then
            match p with
            | .obj ms => .ok (ms.getD "version" (Json.int 1))
            | _ => .error .attributeError
          else .ok (Json.int 1)
      match acked with
      | .error e => .error e
      | .ok acked_version =>
        match pyMin acked_version s.version with
        | .error e => .error e
        | .ok newv =>
          let s1 := { s with _version_ack_received := true, version := newv }
          match s1._build_send_request with
          | .error e => .error e
          | .ok request =>
            let p := s1._next_msg_id
            let request_msg := make_send_request p.1 request.to_dict
            .ok ({ p.2 with state := SenderState.SENT_REQUEST },
              [(some (.VersionAcked newv), some request_msg)])
    else if name_lower = strLower WS_ACTION_SEND_REQUEST then
      .ok ({ s with _request_ack_received := true, state := SenderState.WAITING_DOWNLOAD },
        [(some (.RequestSent s.task_id), none)])
    else if name_lower = strLower WS_ACTION_STATUS then
      .ok (s, [(none, none)])
    else
      .ok (s, [])
  else if msg.type = WS_TYPE_ACTION then
    let name_lower := strLower msg.name
    if name_lower = strLower WS_ACTION_STATUS then
      match msg.payload with
      | none =>
        .ok (s, [(some (.SenderProtocolError "status has no payload"),
          some (msg.make_ack none))])
      | some p =>
        match TransferStatus.from_dict p with
        | .error e => .error e
        | .ok status =>
          if jsonEqInt status.type STATUS_USER_REFUSE then
            .ok ({ s with state := SenderState.REJECTED },
              [(some (.TransferRejected status.reason), some (msg.make_ack none))])
          else if jsonEqInt status.type STATUS_OK then
            .ok ({ s with state := SenderState.COMPLETED },
              [(some (.TransferCompleted s.task_id), some (msg.make_ack none))])
          else
            .ok (s, [(none, some (msg.make_ack none))])
    else
      .ok (s, [(none, some (msg.make_ack none))])
  else
    .ok (s, [])

def SenderProtocol.on_download_started (s : SenderProtocol) : SenderProtocol × SenderEvent :=
  ({ s with state := SenderState.TRANSFERRING }, .TransferStarted s.task_id)

def SenderProtocol.check_task_id (s : SenderProtocol) (request_task_id : String) : Bool :=
  request_task_id == s.task_id

/-- C9: an action named `sendRequest` or `status` with an absent payload is
still answered by exactly one ack echoing the action's id and name, together
with a protocol-error event, and the machine's state (indeed the whole
object) is unchanged; this holds for the receiver on both names and for the
sender on `status`, in every state. -/
theorem C9_missing_payload_acked (r : ReceiverProtocol) (s : SenderProtocol) (i : Int) :
    (r.on_ws_message ⟨"action", i, "sendRequest", none⟩ =
      .ok (r, [(some (.ProtocolError "sendRequest has no payload"),
        some ⟨"ack", i, "sendRequest", none⟩)])) ∧
    (r.on_ws_message ⟨"action", i, "status", none⟩ =
      .ok (r, [(some (.ProtocolError "status has no payload"),
        some ⟨"ack", i, "status", none⟩)])) ∧
    (s.on_ws_message ⟨"action", i, "status", none⟩ =
      .ok (s, [(some (.SenderProtocolError "status has no payload"),
        some ⟨"ack", i, "status", none⟩)])) :=
  ⟨rfl, rfl, rfl⟩

/-! Integer literals read back as the integer they print. -/

theorem intCharsVal?_digits {l : List Char} (hne : l ≠ [])
    (hd : ∀ c ∈ l, c.isDigit = true) :
    intCharsVal? l = some (digitsVal l) := by
  rcases l with _ | ⟨c, cs⟩
  · exact absurd rfl hne
  have hc : c.isDigit = true := hd c (by simp)
  have hcne : c ≠ '-' := by intro h; rw [h] at hc; exact absurd hc (by decide)
  have hall : (c :: cs).all Char.isDigit = true := by
    rw [List.all_eq_true]; exact hd
  rw [intCharsVal?.eq_def]
  split
  · next heq => exact absurd heq (by simp)
  · next heq => rw [List.cons.injEq] at heq; exact absurd heq.1 hcne
  · rw [if_pos hall]
    rfl

theorem intLitVal?_intLit (v : Int) : intLitVal? (intLit v) = some v := by
  by_cases hv : v < 0
  · rw [intLit, if_pos hv]
    show intCharsVal? ('-' :: natToChars v.natAbs) = some v
    rw [intCharsVal?]
    rw [if_pos]
    · rw [digitsVal_natToChars]
      have : (v.natAbs : Int) = -v := by omega
      rw [this, neg_neg]
    · rw [Bool.and_eq_true, List.all_eq_true]
      exact ⟨by simp [natToChars_ne_nil], fun x hx => natToChars_digits _ x hx⟩
  · rw [intLit, if_neg hv]
    show intCharsVal? (natToChars v.natAbs) = some v
    rw [intCharsVal?_digits (natToChars_ne_nil _) (natToChars_digits _),
      digitsVal_natToChars]
    show some ((v.natAbs : Nat) : Int) = some v
    have : (v.natAbs : Int) = v := by omega
    rw [this]

theorem pyMinVersion_int (v proto : Int) :
    pyMinVersion (Json.int v) proto = .ok (Json.int (min v proto)) := by
  show pyMinVersion (.num (intLit v)) proto = .ok (Json.int (min v proto))
  rw [pyMinVersion, intLitVal?_intLit]
  dsimp only
  by_cases h : v ≤ proto
  · rw [if_pos h, min_eq_left h]
    rfl
  · rw [if_neg h, min_eq_right (le_of_not_le h)]

/-- C3: a receiver in `WAITING_VERSION` (with the default thread limit 5)
that receives an action `versionNegotiation` with payload `{version: v}`
moves to `WAITING_SEND_REQUEST`, emits exactly one ack echoing the action's
id and name with payload `{version: min(v,1), threadLimit: 5}`, and emits a
`VersionNegotiated` event carrying that version and thread limit 5. -/
theorem C3_version_negotiation (r : ReceiverProtocol) (i v : Int)
    (hstate : r.state = .WAITING_VERSION) (hthread : r.thread_limit = 5) :
    r.on_ws_message ⟨"action", i, "versionNegotiation",
        some (.obj (.cons "version" (.int v) .nil))⟩ =
      .ok ({ r with state := .WAITING_SEND_REQUEST, version := Json.int (min v 1) },
        [(some (.VersionNegotiated (Json.int (min v 1)) 5),
          some ⟨"ack", i, "versionNegotiation",
            some (.obj (.cons "version" (Json.int (min v 1))
              (.cons "threadLimit" (Json.int 5) .nil)))⟩)]) := by
  have step : r.on_ws_message ⟨"action", i, "versionNegotiation",
        some (.obj (.cons "version" (.int v) .nil))⟩ =
      (match pyMinVersion (Json.int v) PROTOCOL_VERSION with
       | .error e => .error e
       | .ok newv =>
         .ok ({ r with state := .WAITING_SEND_REQUEST, version := newv },
           [(some (.VersionNegotiated newv r.thread_limit),
             some ⟨"ack", i, "versionNegotiation",
               some (.obj (.cons "version" newv
                 (.cons "threadLimit" (Json.int r.thread_limit) .nil)))⟩)])) := rfl
  rw [step, pyMinVersion_int, hthread]
  rfl

/-- Witness for C3 on a freshly initialized receiver and version 2. -/
theorem C3_witness :
    (ReceiverProtocol.init "h" 1).on_ws_message ⟨"action", 0, "versionNegotiation",
        some (.obj (.cons "version" (.int 2) .nil))⟩ =
      .ok ({ ReceiverProtocol.init "h" 1 with
              state := .WAITING_SEND_REQUEST, version := Json.int (min 2 1) },
        [(some (.VersionNegotiated (Json.int (min 2 1)) 5),
          some ⟨"ack", 0, "versionNegotiation",
            some (.obj (.cons "version" (Json.int (min 2 1))
              (.cons "threadLimit" (Json.int 5) .nil)))⟩)]) :=
  C3_version_negotiation (ReceiverProtocol.init "h" 1) 0 2 rfl rfl

/-- C10 (corrected): the receiver never gates an input on its current
state — the outputs and error behaviour of `on_ws_message` are identical
from every state (first conjunct), an action `sendRequest` carrying a JSON
*object* payload moves any state to `WAITING_USER_ACCEPT` and stores the
parsed request (second conjunct), and an action `versionNegotiation`
carrying an integer version moves any state to `WAITING_SEND_REQUEST`
(third conjunct).  The claim is corrected, not confirmed, because its
unconditional reading is false: a `sendRequest` payload that is not an
object, or a `versionNegotiation` version that is not a number, makes the
generator raise (`C10_counterexample`) — the input is then dropped with no
transition, though still never because of the state it arrived in. -/
theorem C10_state_independent :
    (∀ (r : ReceiverProtocol) (st : ReceiverState) (msg : WSMessage),
        Except.map Prod.snd (({ r with state := st }).on_ws_message msg) =
          Except.map Prod.snd (r.on_ws_message msg)) ∧
    (∀ (r : ReceiverProtocol) (i : Int) (ms : JsonMembers), ∃ req out,
        SendRequest.from_dict (.obj ms) = .ok req ∧
        r.on_ws_message ⟨"action", i, "sendRequest", some (.obj ms)⟩ =
          .ok ({ r with _send_request := some req, state := .WAITING_USER_ACCEPT }, out)) ∧
    (∀ (r : ReceiverProtocol) (i v : Int), ∃ out,
        r.on_ws_message ⟨"action", i, "versionNegotiation",
            some (.obj (.cons "version" (.int v) .nil))⟩ =
          .ok ({ r with state := .WAITING_SEND_REQUEST, version := Json.int (min v 1) },
            out)) := by
  refine ⟨?_, ?_, ?_⟩
  · intro r st msg
    simp only [ReceiverProtocol.on_ws_message]
    repeat' first | rfl | split
  · intro r i ms
    have step : r.on_ws_message ⟨"action", i, "sendRequest", some (.obj ms)⟩ =
        (if ms.getD "catShareText" .null ≠ .null then
          .ok ({ r with
              _send_request := some ⟨taskIdOf ms, ms.getD "senderId" (.str ""),
                ms.getD "senderName" (.str "Unknown"), ms.getD "fileName" (.str ""),
                ms.getD "fileCount" (.int 1), ms.getD "totalSize" (.int 0),
                ms.getD "mimeType" (.str "*/*"), ms.getD "catShareText" .null,
                ms.getD "thumbnail" .null⟩,
              state := .WAITING_USER_ACCEPT },
            [(some (.TextReceived (ms.getD "catShareText" .null) (taskIdOf ms)),
              some ⟨"ack", i, "sendRequest", none⟩)])
        else
          .ok ({ r with
              _send_request := some ⟨taskIdOf ms, ms.getD "senderId" (.str ""),
                ms.getD "senderName" (.str "Unknown"), ms.getD "fileName" (.str ""),
                ms.getD "fileCount" (.int 1), ms.getD "totalSize" (.int 0),
                ms.getD "mimeType" (.str "*/*"), ms.getD "catShareText" .null,
                ms.getD "thumbnail" .null⟩,
              state := .WAITING_USER_ACCEPT },
            [(some (.SendRequestReceived ⟨taskIdOf ms, ms.getD "senderId" (.str ""),
                ms.getD "senderName" (.str "Unknown"), ms.getD "fileName" (.str ""),
                ms.getD "fileCount" (.int 1), ms.getD "totalSize" (.int 0),
                ms.getD "mimeType" (.str "*/*"), ms.getD "catShareText" .null,
                ms.getD "thumbnail" .null⟩ (ms.getD "thumbnail" .null)),
              some ⟨"ack", i, "sendRequest", none⟩)])) := rfl
    by_cases h : ms.getD "catShareText" .null ≠ .null
    · exact ⟨_, _, rfl, by rw [step, if_pos h]⟩
    · exact ⟨_, _, rfl, by rw [step, if_neg h]⟩
  · intro r i v
    have step : r.on_ws_message ⟨"action", i, "versionNegotiation",
          some (.obj (.cons "version" (.int v) .nil))⟩ =
        (match pyMinVersion (Json.int v) PROTOCOL_VERSION with
         | .error e => .error e
         | .ok newv =>
           .ok ({ r with state := .WAITING_SEND_REQUEST, version := newv },
             [(some (.VersionNegotiated newv r.thread_limit),
               some ⟨"ack", i, "versionNegotiation",
                 some (.obj (.cons "version" newv
                   (.cons "threadLimit" (Json.int r.thread_limit) .nil)))⟩)])) := rfl
    refine ⟨[(some (.VersionNegotiated (Json.int (min v 1)) r.thread_limit),
      some ⟨"ack", i, "versionNegotiation", some (.obj (.cons "version" (Json.int (min v 1))
        (.cons "threadLimit" (Json.int r.thread_limit) .nil)))⟩)], ?_⟩
    rw [step, pyMinVersion_int]
    rfl

/-- C10 counterexample: from its initial state the receiver, handed a
`versionNegotiation` action whose version is a string, raises `TypeError`
(from `min`) instead of moving to `WAITING_SEND_REQUEST`. -/
theorem C10_counterexample :
    (ReceiverProtocol.init "h" 1).on_ws_message ⟨"action", 0, "versionNegotiation",
        some (.obj (.cons "version" (.str "two") .nil))⟩ = .error .typeError := rfl

/-- Payload shape under which the receiver's and sender's `status` /
`sendRequest` branches do not raise: absent, or a JSON object. -/
def payloadObjOk : Option Json → Prop
  | none => True
  | some p => ∃ ms, p = Json.obj ms

/-- Payload shape under which the `versionNegotiation` branch does not
raise: absent, falsy (Python `if msg.payload` fails, version defaults to
1), or an object whose `version` field `min` accepts. -/
def versionFieldOk : Option Json → Prop
  | none => True
  | some p => jsonTruthy p = false ∨
      ∃ ms, p = Json.obj ms ∧
        ∃ w, pyMinVersion (ms.getD "version" (Json.int 1)) PROTOCOL_VERSION = Except.ok w

/-- C1 (corrected): an inbound `action` frame is answered by exactly one
outbound frame of type `ack` carrying the same id and name, for both the
receiver and the sender in every state — provided the payload has the shape
the handling branch assumes.  The claim's unconditional version ("any name,
with or without payload") is false: a `sendRequest`/`status` payload that is
not a JSON object, or a `versionNegotiation` version value that is not a
number, makes the generator raise before the ack is yielded
(`C1_counterexample`). -/
theorem C1_action_single_ack (r : ReceiverProtocol) (s : SenderProtocol) (msg : WSMessage)
    (htype : msg.type = "action")
    (hv : strLower msg.name = strLower WS_ACTION_VERSION_NEGOTIATION →
      versionFieldOk msg.payload)
    (hsr : strLower msg.name = strLower WS_ACTION_SEND_REQUEST →
      payloadObjOk msg.payload)
    (hst : strLower msg.name = strLower WS_ACTION_STATUS →
      payloadObjOk msg.payload) :
    (∃ r' ev pl, r.on_ws_message msg = .ok (r', [(ev, some ⟨"ack", msg.id, msg.name, pl⟩)])) ∧
    (∃ s' ev pl, s.on_ws_message msg = .ok (s', [(ev, some ⟨"ack", msg.id, msg.name, pl⟩)])) := by
  constructor
  · simp only [ReceiverProtocol.on_ws_message]
    rw [if_neg (show ¬(msg.type ≠ WS_TYPE_ACTION) from fun h => h htype)]
    by_cases h1 : strLower msg.name = strLower WS_ACTION_VERSION_NEGOTIATION
    · rw [if_pos h1]
      rcases hp : msg.payload with _ | p
      · exact ⟨_, _, _, rfl⟩
      · have hvv := hv h1
        rw [hp] at hvv
        simp only [versionFieldOk] at hvv
        dsimp only
        rcases hvv with hft | ⟨ms, rfl, w, hw⟩
        · rw [if_neg (show ¬(jsonTruthy p = true) from fun hc => Bool.false_ne_true (hft ▸ hc))]
          exact ⟨_, _, _, rfl⟩
        · rcases ms with _ | ⟨k, v, tl⟩
          · exact ⟨_, _, _, rfl⟩
          · rw [if_pos (show jsonTruthy (Json.obj (JsonMembers.cons k v tl)) = true from rfl)]
            dsimp only
            rw [hw]
            exact ⟨_, _, _, rfl⟩
    rw [if_neg h1]
    by_cases h2 : strLower msg.name = strLower WS_ACTION_SEND_REQUEST
    · rw [if_pos h2]
      rcases hp : msg.payload with _ | p
      · exact ⟨_, _, _, rfl⟩
      · have hpo := hsr h2
        rw [hp] at hpo
        simp only [payloadObjOk] at hpo
        obtain ⟨ms, rfl⟩ := hpo
        have hfd : SendRequest.from_dict (Json.obj ms) =
            .ok ⟨taskIdOf ms, ms.getD "senderId" (.str ""),
              ms.getD "senderName" (.str "Unknown"), ms.getD "fileName" (.str ""),
              ms.getD "fileCount" (.int 1), ms.getD "totalSize" (.int 0),
              ms.getD "mimeType" (.str "*/*"), ms.getD "catShareText" .null,
              ms.getD "thumbnail" .null⟩ := rfl
        dsimp only
        rw [hfd]
        dsimp only
        by_cases ht : ms.getD "catShareText" .null ≠ .null
        · rw [if_pos ht]
          exact ⟨_, _, _, rfl⟩
        · rw [if_neg ht]
          exact ⟨_, _, _, rfl⟩
    rw [if_neg h2]
    by_cases h3 : strLower msg.name = strLower WS_ACTION_STATUS
    · rw [if_pos h3]
      rcases hp : msg.payload with _ | p
      · exact ⟨_, _, _, rfl⟩
      · have hpo := hst h3
        rw [hp] at hpo
        simp only [payloadObjOk] at hpo
        obtain ⟨ms, rfl⟩ := hpo
        exact ⟨_, _, _, rfl⟩
    · rw [if_neg h3]
      exact ⟨_, _, _, rfl⟩
  · simp only [SenderProtocol.on_ws_message]
    rw [if_neg (show ¬(msg.type = WS_TYPE_ACK) from fun h => by
      rw [htype] at h; exact absurd h (by decide))]
    rw [if_pos (show msg.type = WS_TYPE_ACTION from htype)]
    by_cases h3 : strLower msg.name = strLower WS_ACTION_STATUS
    · rw [if_pos h3]
      rcases hp : msg.payload with _ | p
      · exact ⟨_, _, _, rfl⟩
      · have hpo := hst h3
        rw [hp] at hpo
        simp only [payloadObjOk] at hpo
        obtain ⟨ms, rfl⟩ := hpo
        have hfd : TransferStatus.from_dict (Json.obj ms) =
            .ok ⟨ms.getD "type" (.int 0), ms.getD "reason" (.str ""), taskIdOf ms⟩ := rfl
        dsimp only
        rw [hfd]
        dsimp only
        by_cases hu : jsonEqInt (ms.getD "type" (Json.int 0)) STATUS_USER_REFUSE = true
        · rw [if_pos hu]
          exact ⟨_, _, _, rfl⟩
        · rw [if_neg hu]
          by_cases ho : jsonEqInt (ms.getD "type" (Json.int 0)) STATUS_OK = true
          · rw [if_pos ho]
            exact ⟨_, _, _, rfl⟩
          · rw [if_neg ho]
            exact ⟨_, _, _, rfl⟩
    · rw [if_neg h3]
      exact ⟨_, _, _, rfl⟩

/-- C1 counterexample: an action with a payload (here a JSON array, where
the code expects an object) produces no ack at all — the generator raises
`AttributeError` inside `SendRequest.from_dict`. -/
theorem C1_counterexample :
    (ReceiverProtocol.init "h" 1).on_ws_message
        ⟨"action", 5, "sendRequest", some (Json.arr .nil)⟩ =
      .error .attributeError := rfl

/-- Witness for C1: an unknown action with no payload is acked by both
machines. -/
theorem C1_witness :
    (∃ r' ev pl, (ReceiverProtocol.init "h" 1).on_ws_message ⟨"action", 3, "ping", none⟩ =
      .ok (r', [(ev, some ⟨"ack", 3, "ping", pl⟩)])) ∧
    (∃ s' ev pl, (SenderProtocol.init "D" "sid" "tid").on_ws_message
        ⟨"action", 3, "ping", none⟩ =
      .ok (s', [(ev, some ⟨"ack", 3, "ping", pl⟩)])) :=
  C1_action_single_ack (ReceiverProtocol.init "h" 1) (SenderProtocol.init "D" "sid" "tid")
    ⟨"action", 3, "ping", none⟩ rfl (fun _ => trivial) (fun _ => trivial) (fun _ => trivial)

/-! For C6: a session of receiver-initiated driver calls.  `reject_transfer`
and `send_ok` are the only methods that emit receiver-initiated frames. -/

inductive RcvCall
  | reject
  | sendOk
deriving DecidableEq, Repr

def runRcvCalls : ReceiverProtocol → List RcvCall → ReceiverProtocol × List WSMessage
  | r, [] => (r, [])
  | r, c :: cs =>
    let p := match c with
      | .reject => r.reject_transfer
      | .sendOk => r.send_ok
    let q := runRcvCalls p.1 cs
    (q.1, p.2 :: q.2)

theorem runRcvCalls_ids (calls : List RcvCall) : ∀ (r : ReceiverProtocol),
    (runRcvCalls r calls).2.map WSMessage.id =
      (List.range calls.length).map (fun j : Nat => r._msg_id_counter + 1 + (j : Int)) := by
  induction calls with
  | nil => intro r; rfl
  | cons c cs ih =>
    intro r
    show (List.map WSMessage.id (runRcvCalls r (c :: cs)).2) =
      List.map (fun j : Nat => r._msg_id_counter + 1 + (j : Int)) (List.range (cs.length + 1))
    rw [List.range_succ_eq_map, List.map_cons, List.map_map]
    cases c
    · show (r.reject_transfer.2.id :: List.map WSMessage.id
        (runRcvCalls r.reject_transfer.1 cs).2) = _
      rw [ih]
      have h1 : r.reject_transfer.2.id = r._msg_id_counter + 1 := rfl
      have h2 : r.reject_transfer.1._msg_id_counter = r._msg_id_counter + 1 := rfl
      rw [h1, h2]
      refine congrArg₂ _ (by push_cast; ring) ?_
      refine List.map_congr_left fun j hj => ?_
      simp only [Function.comp_apply]
      push_cast
      ring
    · show (r.send_ok.2.id :: List.map WSMessage.id
        (runRcvCalls r.send_ok.1 cs).2) = _
      rw [ih]
      have h1 : r.send_ok.2.id = r._msg_id_counter + 1 := rfl
      have h2 : r.send_ok.1._msg_id_counter = r._msg_id_counter + 1 := rfl
      rw [h1, h2]
      refine congrArg₂ _ (by push_cast; ring) ?_
      refine List.map_congr_left fun j hj => ?_
      simp only [Function.comp_apply]
      push_cast
      ring

/-- C6: from a receiver whose message-id counter has its initial value 99,
any sequence of receiver-initiated calls (`reject_transfer` / `send_ok`, in
any mix and from any state) emits frames whose ids are exactly
100, 101, 102, … in call order; and processing inbound WebSocket messages
never changes the counter, so interleaved `on_ws_message` calls do not
disturb the sequence. -/
theorem C6_receiver_msg_ids (r : ReceiverProtocol) (calls : List RcvCall)
    (hc : r._msg_id_counter = 99) :
    ((runRcvCalls r calls).2.map WSMessage.id =
      (List.range calls.length).map (fun j : Nat => 100 + (j : Int))) ∧
    (∀ msg r' out, r.on_ws_message msg = .ok (r', out) →
      r'._msg_id_counter = r._msg_id_counter) := by
  constructor
  · rw [runRcvCalls_ids]
    exact List.map_congr_left fun j hj => by rw [hc]; ring
  · intro msg r' out h
    simp only [ReceiverProtocol.on_ws_message] at h
    repeat' split at h
    all_goals first
      | exact Except.noConfusion h
      | (simp only [Except.ok.injEq, Prod.mk.injEq] at h
         obtain ⟨h1, h2⟩ := h
         rw [← h1])

/-- Witness for C6: three calls from a fresh receiver produce ids
100, 101, 102. -/
theorem C6_witness :
    ((runRcvCalls (ReceiverProtocol.init "h" 1) [.reject, .sendOk, .reject]).2.map
        WSMessage.id =
      (List.range 3).map (fun j : Nat => 100 + (j : Int))) ∧
    (∀ msg r' out, (ReceiverProtocol.init "h" 1).on_ws_message msg = .ok (r', out) →
      r'._msg_id_counter = (ReceiverProtocol.init "h" 1)._msg_id_counter) :=
  C6_receiver_msg_ids (ReceiverProtocol.init "h" 1) [.reject, .sendOk, .reject] rfl

theorem dedup_const {α : Type} [DecidableEq α] (l : List α) (m : α) (hne : l ≠ [])
    (h : ∀ x ∈ l, x = m) : l.dedup = [m] := by
  induction l with
  | nil => exact absurd rfl hne
  | cons a t ih =>
    have ha : a = m := h a (by simp)
    rcases t with _ | ⟨b, u⟩
    · rw [ha]
      simp
    · have ht : (b :: u).dedup = [m] := ih (by simp) (fun x hx => h x (by simp [hx]))
      subst ha
      rw [List.dedup_cons_of_mem, ht]
      have hb : b = a := (h b (by simp)).trans rfl
      rw [← hb]
      exact List.mem_cons_self b u

theorem one_lt_length_of_two_mem {α : Type} (l : List α) (a b : α) (ha : a ∈ l)
    (hb : b ∈ l) (hab : a ≠ b) : 1 < l.length := by
  rcases l with _ | ⟨x, t⟩
  · cases ha
  rcases t with _ | ⟨y, u⟩
  · simp only [List.mem_singleton] at ha hb
    subst ha; subst hb; exact absurd rfl hab
  · simp only [List.length_cons]
    omega

/-- C7: for a non-empty configured file list, the `SendRequest` built by
the sender has `total_size` the sum of the file sizes, `file_name` the
first file's name, `file_count` the list length, `mime_type` the common
mime when all files share one and `"*/*"` otherwise, and `text_content`
present (a string) exactly when the list is a single item carrying text. -/
theorem C7_build_send_request (s : SenderProtocol) (hne : s._files ≠ []) :
    ∃ req, s._build_send_request = .ok req ∧
      req.total_size = Json.int ((s._files.map (·.size)).sum) ∧
      req.file_name = Json.str (s._files.head hne).name ∧
      req.file_count = Json.int s._files.length ∧
      (∀ m, (∀ f ∈ s._files, f.mime_type = m) → req.mime_type = Json.str m) ∧
      ((¬∃ m, ∀ f ∈ s._files, f.mime_type = m) → req.mime_type = Json.str "*/*") ∧
      (∀ f t, s._files = [f] → f.text_content = some t → req.text_content = Json.str t) ∧
      ((¬∃ f t, s._files = [f] ∧ f.text_content = some t) → req.text_content = Json.null) := by
  obtain ⟨dn, sid, tid, st, ver, files, mid, fl1, fl2⟩ := s
  rcases files with _ | ⟨f, fs⟩
  · exact absurd rfl hne
  rcases fs with _ | ⟨g, gs⟩
  · -- a single configured file
    refine ⟨_, rfl, rfl, rfl, rfl, ?_, ?_, ?_, ?_⟩
    · intro m hm
      rw [show m = f.mime_type from (hm f (by simp)).symm]
    · intro h
      exact absurd ⟨f.mime_type, fun f2 hf2 => by
        rw [List.mem_singleton] at hf2; rw [hf2]⟩ h
    · intro f2 t heq ht
      injection heq with h1 _
      subst h1
      show (match f.text_content with | some t => Json.str t | none => Json.null) = Json.str t
      rw [ht]
    · intro h
      rcases hft : f.text_content with _ | t
      · show (match f.text_content with | some t => Json.str t | none => Json.null) = Json.null
        rw [hft]
      · exact absurd ⟨f, t, rfl, hft⟩ h
  · -- at least two configured files
    simp only [SenderProtocol._build_send_request]
    rw [if_neg (show ¬((f :: g :: gs).length = 1) from by simp)]
    by_cases hcom : ∃ m, ∀ fx ∈ f :: g :: gs, fx.mime_type = m
    · obtain ⟨m, hm⟩ := hcom
      have hded : ((f :: g :: gs).map (·.mime_type)).dedup = [m] :=
        dedup_const _ m (by simp) (fun x hx => by
          rw [List.mem_map] at hx
          obtain ⟨fx, hfx, rfl⟩ := hx
          exact hm fx hfx)
      rw [hded]
      rw [if_neg (show ¬((1:Nat) < ([m] : List String).length) from by simp)]
      refine ⟨_, rfl, rfl, rfl, rfl, ?_, ?_, ?_, ?_⟩
      · intro m2 hm2
        have : m = m2 := by rw [← hm f (by simp), hm2 f (by simp)]
        rw [← this]
      · intro h
        exact absurd ⟨m, hm⟩ h
      · intro f2 t heq
        exact absurd heq (by simp)
      · intro h
        rfl
    · have hx : ∃ fx ∈ f :: g :: gs, fx.mime_type ≠ f.mime_type := by
        by_contra hall
        push_neg at hall
        exact hcom ⟨f.mime_type, hall⟩
      obtain ⟨fx, hfx, hneq⟩ := hx
      have h2 : 1 < ((f :: g :: gs).map (·.mime_type)).dedup.length := by
        refine one_lt_length_of_two_mem _ fx.mime_type f.mime_type ?_ ?_ hneq
        · rw [List.mem_dedup]
          exact List.mem_map_of_mem _ hfx
        · rw [List.mem_dedup]
          exact List.mem_map_of_mem _ (by simp)
      rw [if_pos h2]
      refine ⟨_, rfl, rfl, rfl, rfl, ?_, ?_, ?_, ?_⟩
      · intro m hm
        exact absurd ⟨m, hm⟩ hcom
      · intro h
        rfl
      · intro f2 t heq
        exact absurd heq (by simp)
      · intro h
        rfl

/-- Witness for C7: one text file of 3 bytes. -/
theorem C7_witness :
    ∃ req, ((SenderProtocol.init "D" "sid" "tid").set_files
        [⟨"a.txt", 3, "text/plain", some "hi"⟩])._build_send_request = .ok req ∧
      req.total_size = Json.int 3 ∧ req.file_name = Json.str "a.txt" ∧
      req.file_count = Json.int 1 ∧ req.mime_type = Json.str "text/plain" ∧
      req.text_content = Json.str "hi" := by
  obtain ⟨req, h1, h2, h3, h4, h5, h6, h7, h8⟩ :=
    C7_build_send_request ((SenderProtocol.init "D" "sid" "tid").set_files
      [⟨"a.txt", 3, "text/plain", some "hi"⟩]) (by decide)
  exact ⟨req, h1, h2.trans (by decide), h3.trans (by decide), h4.trans (by decide),
    (h5 "text/plain" (by decide)).trans (by decide),
    h7 ⟨"a.txt", 3, "text/plain", some "hi"⟩ "hi" rfl rfl⟩

/-- C5 evidence (code bug): processing the *same* `versionNegotiation` ack
twice is not idempotent — the second call mutates the sender again
(message-id counter moves to 2) and emits one more `VersionAcked` event
with one more outbound `sendRequest` frame (id 1).  The
`_version_ack_received` / `_request_ack_received` flags that were meant to
implement the spec's "ignored after first" rule are set but never read. -/
theorem C5_duplicate_ack_not_ignored :
    ((((SenderProtocol.init "Dev" "sid" "tid").set_files
        [⟨"a.txt", 3, "text/plain", none⟩]).on_ws_message
        ⟨"ack", 0, "versionNegotiation", none⟩).bind fun x =>
      x.1.on_ws_message ⟨"ack", 0, "versionNegotiation", none⟩) =
    .ok (⟨"Dev", "sid", "tid", .SENT_REQUEST, Json.num "1",
        [⟨"a.txt", 3, "text/plain", none⟩], 2, true, false⟩,
      [(some (.VersionAcked (Json.num "1")),
        some ⟨"action", 1, "sendRequest", some (Json.obj (JsonMembers.cons "taskId"
          (Json.str "tid") (JsonMembers.cons "id" (Json.str "tid")
          (JsonMembers.cons "senderId" (Json.str "sid")
          (JsonMembers.cons "senderName" (Json.str "Dev")
          (JsonMembers.cons "fileName" (Json.str "a.txt")
          (JsonMembers.cons "mimeType" (Json.str "text/plain")
          (JsonMembers.cons "fileCount" (Json.num "1")
          (JsonMembers.cons "totalSize" (Json.num "3") JsonMembers.nil)))))))))⟩)]) := rfl

/-! ## Session ciphers (src/crypto.py and src/src/mtapy/crypto.py)

Bytes are naturals below 256.  The AES block cipher is a call into the
`cryptography` library (`Cipher(algorithms.AES(key), modes.CTR(iv))`); it
enters the model as an abstract keystream `ks key iv i` — byte `i` of the
CTR keystream for the pair `(key, iv)` — assumed only to produce bytes.
CTR mode XORs that keystream with the data, which is all the round-trip
property rests on.  ECDH, SHA-256 and HKDF are likewise library calls; the
byte strings they produce (`shared_secret`, `sha_digest`, the HKDF pairs)
are inputs of `derive_session_cipher` here. -/

/-- One character's UTF-8 bytes (`str.encode("utf-8")`). -/
def utf8EncodeChar (c : Char) : List Nat :=
  if c.toNat < 0x80 then [c.toNat]
  else if c.toNat < 0x800 then [0xC0 + c.toNat / 64, 0x80 + c.toNat % 64]
  else if c.toNat < 0x10000 then
    [0xE0 + c.toNat / 4096, 0x80 + c.toNat / 64 % 64, 0x80 + c.toNat % 64]
  else
    [0xF0 + c.toNat / 262144, 0x80 + c.toNat / 4096 % 64,
      0x80 + c.toNat / 64 % 64, 0x80 + c.toNat % 64]

def utf8Encode (s : String) : List Nat := (s.data.map utf8EncodeChar).flatten

/-- Strict UTF-8 decoding (`bytes.decode("utf-8")`): rejects stray or
missing continuation bytes, overlong forms, surrogates and code points
beyond U+10FFFF, as CPython does. -/
def utf8DecodeAux : Nat → List Nat → Option (List Char)
  | 0, _ => none
  | _ + 1, [] => some []
  | f + 1, b :: rest =>
    if b < 0x80 then (utf8DecodeAux f rest).map (fun l => Char.ofNat b :: l)
    else if b < 0xC2 then none
    else if b < 0xE0 then
      match rest with
      | b2 :: r =>
        if 0x80 ≤ b2 ∧ b2 < 0xC0 then
          (utf8DecodeAux f r).map (fun l => Char.ofNat ((b - 0xC0) * 64 + (b2 - 0x80)) :: l)
        else none
      | [] => none
    else if b < 0xF0 then
      match rest with
      | b2 :: b3 :: r =>
        if (0x80 ≤ b2 ∧ b2 < 0xC0) ∧ (0x80 ≤ b3 ∧ b3 < 0xC0) then
          if (b - 0xE0) * 4096 + (b2 - 0x80) * 64 + (b3 - 0x80) < 0x800 ∨
              (0xD800 ≤ (b - 0xE0) * 4096 + (b2 - 0x80) * 64 + (b3 - 0x80) ∧
                (b - 0xE0) * 4096 + (b2 - 0x80) * 64 + (b3 - 0x80) < 0xE000) then none
          else (utf8DecodeAux f r).map
            (fun l => Char.ofNat ((b - 0xE0) * 4096 + (b2 - 0x80) * 64 + (b3 - 0x80)) :: l)
        else none
      | _ => none
    else if b < 0xF5 then
      match rest with
      | b2 :: b3 :: b4 :: r =>
        if (0x80 ≤ b2 ∧ b2 < 0xC0) ∧ (0x80 ≤ b3 ∧ b3 < 0xC0) ∧ (0x80 ≤ b4 ∧ b4 < 0xC0) then
          if (b - 0xF0) * 262144 + (b2 - 0x80) * 4096 + (b3 - 0x80) * 64 + (b4 - 0x80) <
              0x10000 ∨ 0x110000 ≤
              (b - 0xF0) * 262144 + (b2 - 0x80) * 4096 + (b3 - 0x80) * 64 + (b4 - 0x80) then
            none
          else (utf8DecodeAux f r).map (fun l =>
            Char.ofNat ((b - 0xF0) * 262144 + (b2 - 0x80) * 4096 +
              (b3 - 0x80) * 64 + (b4 - 0x80)) :: l)
        else none
      | _ => none
    else none

def utf8Decode (bs : List Nat) : Option String := (utf8DecodeAux (bs.length + 1) bs).map fun l => ⟨l⟩

theorem utf8DecodeAux_encode_cons (f : Nat) (c : Char) (rest : List Nat) :
    utf8DecodeAux (f + 1) (utf8EncodeChar c ++ rest) =
      (utf8DecodeAux f rest).map (fun l => c :: l) := by
  have hval : c.toNat < 0xd800 ∨ (0xdfff < c.toNat ∧ c.toNat < 0x110000) := by
    rcases c.valid with h | ⟨h1, h2⟩
    · exact Or.inl h
    · exact Or.inr ⟨h1, h2⟩
  by_cases h1 : c.toNat < 0x80
  · rw [utf8EncodeChar, if_pos h1, List.cons_append, List.nil_append]
    rw [utf8DecodeAux.eq_def]
    dsimp only
    rw [if_pos h1, Char.ofNat_toNat]
  rw [utf8EncodeChar, if_neg h1]
  by_cases h2 : c.toNat < 0x800
  · rw [if_pos h2, List.cons_append, List.cons_append, List.nil_append]
    rw [utf8DecodeAux.eq_def]
    dsimp only
    rw [if_neg (by omega), if_neg (by omega), if_pos (by omega)]
    rw [if_pos (by constructor <;> omega)]
    have hv : (0xC0 + c.toNat / 64 - 0xC0) * 64 + (0x80 + c.toNat % 64 - 0x80) = c.toNat := by
      omega
    rw [hv, Char.ofNat_toNat]
  rw [if_neg h2]
  by_cases h3 : c.toNat < 0x10000
  · rw [if_pos h3, List.cons_append, List.cons_append, List.cons_append, List.nil_append]
    rw [utf8DecodeAux.eq_def]
    dsimp only
    rw [if_neg (by omega), if_neg (by omega), if_neg (by omega), if_pos (by omega)]
    rw [if_pos (by refine ⟨⟨?_, ?_⟩, ?_, ?_⟩ <;> omega)]
    have hv : (0xE0 + c.toNat / 4096 - 0xE0) * 4096 + (0x80 + c.toNat / 64 % 64 - 0x80) * 64 +
        (0x80 + c.toNat % 64 - 0x80) = c.toNat := by
      omega
    rw [hv]
    rw [if_neg (by omega)]
    rw [Char.ofNat_toNat]
  · rw [if_neg h3, List.cons_append, List.cons_append, List.cons_append, List.cons_append,
      List.nil_append]
    rw [utf8DecodeAux.eq_def]
    dsimp only
    rw [if_neg (by omega), if_neg (by omega), if_neg (by omega), if_neg (by omega),
      if_pos (by omega)]
    rw [if_pos (by refine ⟨⟨?_, ?_⟩, ⟨?_, ?_⟩, ?_, ?_⟩ <;> omega)]
    have hv : (0xF0 + c.toNat / 262144 - 0xF0) * 262144 +
        (0x80 + c.toNat / 4096 % 64 - 0x80) * 4096 +
        (0x80 + c.toNat / 64 % 64 - 0x80) * 64 + (0x80 + c.toNat % 64 - 0x80) = c.toNat := by
      omega
    rw [hv]
    rw [if_neg (by omega)]
    rw [Char.ofNat_toNat]

theorem utf8DecodeAux_encode (l : List Char) : ∀ f, l.length < f →
    utf8DecodeAux f ((l.map utf8EncodeChar).flatten) = some l := by
  induction l with
  | nil =>
    intro f hf
    rcases f with _ | f
    · omega
    · rfl
  | cons c cs ih =>
    intro f hf
    rcases f with _ | f
    · omega
    rw [List.map_cons, List.flatten_cons, utf8DecodeAux_encode_cons,
      ih f (by simpa using hf)]
    rfl

theorem utf8EncodeChar_length_pos (c : Char) : 1 ≤ (utf8EncodeChar c).length := by
  rw [utf8EncodeChar]
  by_cases h1 : c.toNat < 0x80
  · rw [if_pos h1]; simp
  rw [if_neg h1]
  by_cases h2 : c.toNat < 0x800
  · rw [if_pos h2]; simp
  rw [if_neg h2]
  by_cases h3 : c.toNat < 0x10000
  · rw [if_pos h3]; simp
  · rw [if_neg h3]; simp

theorem utf8Encode_length_ge (l : List Char) :
    l.length ≤ ((l.map utf8EncodeChar).flatten).length := by
  induction l with
  | nil => simp
  | cons c cs ih =>
    rw [List.map_cons, List.flatten_cons, List.length_append, List.length_cons]
    have := utf8EncodeChar_length_pos c
    omega

theorem utf8Decode_encode (s : String) : utf8Decode (utf8Encode s) = some s := by
  rw [utf8Decode, utf8Encode]
  rw [utf8DecodeAux_encode s.data ((List.map utf8EncodeChar s.data).flatten.length + 1)
    (by have := utf8Encode_length_ge s.data; omega)]
  rfl

theorem utf8EncodeChar_lt (c : Char) : ∀ b ∈ utf8EncodeChar c, b < 256 := by
  have hval : c.toNat < 0x110000 := by
    rcases c.valid with h | ⟨_, h2⟩
    · exact Nat.lt_trans h (by norm_num)
    · exact h2
  intro b hb
  rw [utf8EncodeChar] at hb
  by_cases h1 : c.toNat < 0x80
  · rw [if_pos h1] at hb
    simp only [List.mem_singleton] at hb
    omega
  rw [if_neg h1] at hb
  by_cases h2 : c.toNat < 0x800
  · rw [if_pos h2] at hb
    simp only [List.mem_cons, List.not_mem_nil, or_false] at hb
    rcases hb with rfl | rfl <;> omega
  rw [if_neg h2] at hb
  by_cases h3 : c.toNat < 0x10000
  · rw [if_pos h3] at hb
    simp only [List.mem_cons, List.not_mem_nil, or_false] at hb
    rcases hb with rfl | rfl | rfl <;> omega
  · rw [if_neg h3] at hb
    simp only [List.mem_cons, List.not_mem_nil, or_false] at hb
    rcases hb with rfl | rfl | rfl | rfl <;> omega

theorem utf8Encode_lt (s : String) : ∀ b ∈ utf8Encode s, b < 256 := by
  intro b hb
  rw [utf8Encode, List.mem_flatten] at hb
  obtain ⟨l, hl, hbl⟩ := hb
  rw [List.mem_map] at hl
  obtain ⟨c, _, rfl⟩ := hl
  exact utf8EncodeChar_lt c b hbl

/-! Base64 (`base64.b64encode` / `base64.b64decode`).  The decoder is the
standard strict one; Python's decoder additionally discards non-alphabet
characters before decoding (`validate=False`), which makes no difference on
any input this pipeline produces. -/

def b64Alphabet : List Char :=
  "ABCDEFGHIJKLMNOPQRSTUVWXYZabcdefghijklmnopqrstuvwxyz0123456789+/".data

def b64Char (n : Nat) : Char := b64Alphabet.getD n 'A'

def b64Val? (c : Char) : Option Nat := b64Alphabet.findIdx? (fun a => a = c)

def b64encode : List Nat → List Char
  | [] => []
  | [b1] => [b64Char (b1 / 4), b64Char (b1 % 4 * 16), '=', '=']
  | [b1, b2] => [b64Char (b1 / 4), b64Char (b1 % 4 * 16 + b2 / 16), b64Char (b2 % 16 * 4), '=']
  | b1 :: b2 :: b3 :: rest =>
    b64Char (b1 / 4) :: b64Char (b1 % 4 * 16 + b2 / 16) ::
      b64Char (b2 % 16 * 4 + b3 / 64) :: b64Char (b3 % 64) :: b64encode rest

def b64decode : List Char → Option (List Nat)
  | [] => some []
  | c1 :: c2 :: c3 :: c4 :: rest =>
    match b64Val? c1, b64Val? c2 with
    | some v1, some v2 =>
      if c3 = '=' then
        if c4 = '=' ∧ rest = [] then some [v1 * 4 + v2 / 16] else none
      else
        match b64Val? c3 with
        | some v3 =>
          if c4 = '=' then
            if rest = [] then some [v1 * 4 + v2 / 16, v2 % 16 * 16 + v3 / 4] else none
          else
            match b64Val? c4 with
            | some v4 =>
              (b64decode rest).map (fun bs =>
                (v1 * 4 + v2 / 16) :: (v2 % 16 * 16 + v3 / 4) :: (v3 % 4 * 64 + v4) :: bs)
            | none => none
        | none => none
    | _, _ => none
  | _ => none

theorem b64Val?_b64Char : ∀ n, n < 64 → b64Val? (b64Char n) = some n := by decide

theorem b64Char_ne_pad : ∀ n, n < 64 → b64Char n ≠ '=' := by decide

theorem b64decode_encode : ∀ (n : Nat) (bs : List Nat), bs.length ≤ n →
    (∀ b ∈ bs, b < 256) → b64decode (b64encode bs) = some bs := by
  intro n
  induction n with
  | zero =>
    intro bs hlen _
    rcases bs with _ | _
    · rfl
    · simp at hlen
  | succ n ih =>
    intro bs hlen hb
    rcases bs with _ | ⟨b1, bs⟩
    · rfl
    rcases bs with _ | ⟨b2, bs⟩
    · have h1 : b1 < 256 := hb b1 (by simp)
      rw [b64encode, b64decode]
      rw [b64Val?_b64Char (b1 / 4) (by omega), b64Val?_b64Char (b1 % 4 * 16) (by omega)]
      dsimp only
      rw [if_pos rfl, if_pos ⟨rfl, rfl⟩]
      have e1 : b1 / 4 * 4 + b1 % 4 * 16 / 16 = b1 := by omega
      rw [e1]
    rcases bs with _ | ⟨b3, bs⟩
    · have h1 : b1 < 256 := hb b1 (by simp)
      have h2 : b2 < 256 := hb b2 (by simp)
      rw [b64encode, b64decode]
      rw [b64Val?_b64Char (b1 / 4) (by omega),
        b64Val?_b64Char (b1 % 4 * 16 + b2 / 16) (by omega)]
      dsimp only
      rw [if_neg (b64Char_ne_pad (b2 % 16 * 4) (by omega))]
      rw [b64Val?_b64Char (b2 % 16 * 4) (by omega)]
      dsimp only
      rw [if_pos rfl, if_pos rfl]
      have e1 : b1 / 4 * 4 + (b1 % 4 * 16 + b2 / 16) / 16 = b1 := by omega
      have e2 : (b1 % 4 * 16 + b2 / 16) % 16 * 16 + b2 % 16 * 4 / 4 = b2 := by omega
      rw [e1, e2]
    · have h1 : b1 < 256 := hb b1 (by simp)
      have h2 : b2 < 256 := hb b2 (by simp)
      have h3 : b3 < 256 := hb b3 (by simp)
      rw [b64encode, b64decode]
      rw [b64Val?_b64Char (b1 / 4) (by omega),
        b64Val?_b64Char (b1 % 4 * 16 + b2 / 16) (by omega)]
      dsimp only
      rw [if_neg (b64Char_ne_pad (b2 % 16 * 4 + b3 / 64) (by omega))]
      rw [b64Val?_b64Char (b2 % 16 * 4 + b3 / 64) (by omega)]
      dsimp only
      rw [if_neg (b64Char_ne_pad (b3 % 64) (by omega))]
      rw [b64Val?_b64Char (b3 % 64) (by omega)]
      dsimp only
      rw [ih bs (by simp only [List.length_cons] at hlen; omega)
        (fun b hbb => hb b (by simp [hbb]))]
      dsimp only [Option.map_some']
      have e1 : b1 / 4 * 4 + (b1 % 4 * 16 + b2 / 16) / 16 = b1 := by omega
      have e2 : (b1 % 4 * 16 + b2 / 16) % 16 * 16 + (b2 % 16 * 4 + b3 / 64) / 4 = b2 := by
        omega
      have e3 : (b2 % 16 * 4 + b3 / 64) % 4 * 64 + b3 % 64 = b3 := by omega
      rw [e1, e2, e3]

/-! CTR mode: XOR the data against the keystream. -/

def ctrCryptFrom (stream : Nat → Nat) : Nat → List Nat → List Nat
  | _, [] => []
  | i, b :: bs => (b ^^^ stream i) :: ctrCryptFrom stream (i + 1) bs

def ctrCrypt (stream : Nat → Nat) (data : List Nat) : List Nat := ctrCryptFrom stream 0 data

theorem ctrCryptFrom_involutive (stream : Nat → Nat) :
    ∀ (i : Nat) (bs : List Nat), ctrCryptFrom stream i (ctrCryptFrom stream i bs) = bs := by
  intro i bs
  induction bs generalizing i with
  | nil => rfl
  | cons b bs ih =>
    rw [ctrCryptFrom, ctrCryptFrom, Nat.xor_cancel_right, ih]

theorem ctrCrypt_involutive (stream : Nat → Nat) (bs : List Nat) :
    ctrCrypt stream (ctrCrypt stream bs) = bs :=
  ctrCryptFrom_involutive stream 0 bs

theorem ctrCryptFrom_lt (stream : Nat → Nat) (hs : ∀ i, stream i < 256) :
    ∀ (i : Nat) (bs : List Nat), (∀ b ∈ bs, b < 256) →
      ∀ b ∈ ctrCryptFrom stream i bs, b < 256 := by
  intro i bs
  induction bs generalizing i with
  | nil => intro _ b hb; cases hb
  | cons a bs ih =>
    intro hlt b hb
    rw [ctrCryptFrom] at hb
    rcases List.mem_cons.1 hb with rfl | hb2
    · have h1 : a < 2 ^ 8 := hlt a (by simp)
      have h2 : stream i < 2 ^ 8 := hs i
      exact Nat.xor_lt_two_pow h1 h2
    · exact ih (i + 1) (fun x hx => hlt x (by simp [hx])) b hb2

/-! The fixed IVs of `src/src/mtapy/crypto.py`. -/

def IV_SEQ : List Nat := List.range' 1 16

def IV_NULL : List Nat := List.replicate 16 0

/-! `DefaultSessionCipher` of src/crypto.py: a single AES-128 key (the
first 16 bytes of the ECDH shared secret) with the fixed IV. -/

namespace crypto

structure DefaultSessionCipher where
  _key : List Nat
  _iv : List Nat
deriving DecidableEq, Repr

/-- `__init__`: `self._key = key[:16]`, `self._iv = AES_IV`. -/
def DefaultSessionCipher.init (key : List Nat) : DefaultSessionCipher :=
  ⟨key.take 16, AES_IV⟩

def DefaultSessionCipher.encrypt (ks : List Nat → List Nat → Nat → Nat)
    (c : DefaultSessionCipher) (data : String) : List Char :=
  b64encode (ctrCrypt (ks c._key c._iv) (utf8Encode data))

def DefaultSessionCipher.decrypt (ks : List Nat → List Nat → Nat → Nat)
    (c : DefaultSessionCipher) (encoded_data : List Char) : Except PyError String :=
  match b64decode encoded_data with
  | none => .error .valueError
  | some ct =>
    match utf8Decode (ctrCrypt (ks c._key c._iv) ct) with
    | none => .error .valueError
    | some s => .ok s

/-- `derive_session_cipher`: ECDH produces `shared_secret`; the cipher is
built straight from it. -/
def derive_session_cipher (shared_secret : List Nat) : DefaultSessionCipher :=
  DefaultSessionCipher.init shared_secret

end crypto

/-! `DefaultSessionCipher` of src/src/mtapy/crypto.py: a list of
`(key, iv)` candidates; encryption uses the first, decryption tries each in
order and returns the first whose bytes decode as UTF-8.  A
`UnicodeDecodeError` and a crypto error both continue the loop; with no
candidate left the last error (a `ValueError` subclass) is re-raised. -/

namespace mtapy

structure DefaultSessionCipher where
  _candidates : List (List Nat × List Nat)
deriving DecidableEq, Repr

def DefaultSessionCipher.encrypt (ks : List Nat → List Nat → Nat → Nat)
    (c : DefaultSessionCipher) (data : String) : Except PyError (List Char) :=
  match c._candidates with
  | [] => .error .indexError
  | (key, iv) :: _ => .ok (b64encode (ctrCrypt (ks key iv) (utf8Encode data)))

def decryptLoop (ks : List Nat → List Nat → Nat → Nat) (ct : List Nat) :
    List (List Nat × List Nat) → Except PyError String
  | [] => .error .valueError
  | (key, iv) :: rest =>
    match utf8Decode (ctrCrypt (ks key iv) ct) with
    | some s => .ok s
    | none => decryptLoop ks ct rest

def DefaultSessionCipher.decrypt (ks : List Nat → List Nat → Nat → Nat)
    (c : DefaultSessionCipher) (encoded_data : List Char) : Except PyError String :=
  match b64decode encoded_data with
  | none => .error .valueError
  | some ct => decryptLoop ks ct c._candidates

/-- `derive_session_cipher`: the ten candidates, in source order.  The
SHA-256 digest of the shared secret and the three HKDF outputs are library
results and enter as inputs (each HKDF pair is already split 16/16). -/
def derive_session_cipher (shared_secret sha_digest : List Nat)
    (hkdf1 hkdf2 hkdf3 : List Nat × List Nat) : DefaultSessionCipher :=
  ⟨[(shared_secret.take 16, AES_IV),
    (shared_secret.take 16, IV_SEQ),
    (shared_secret.take 16, IV_NULL),
    (sha_digest.take 16, AES_IV),
    (sha_digest.take 16, IV_SEQ),
    (sha_digest.take 16, IV_NULL),
    (sha_digest.take 16, sha_digest.drop 16),
    hkdf1, hkdf2, hkdf3]⟩

end mtapy

/-- C4: for every session cipher produced by `derive_session_cipher` and
every string `x`, decrypting the encryption of `x` returns `x` — for the
single-key AES-128-CTR cipher of src/crypto.py and for the multi-candidate
cipher of src/src/mtapy/crypto.py (which encrypts with its first candidate
and, decrypting, accepts that same candidate first).  The AES keystream
`ks` is abstract: the only assumption is that it produces bytes. -/
theorem C4_session_cipher_roundtrip (ks : List Nat → List Nat → Nat → Nat)
    (hks : ∀ key iv i, ks key iv i < 256) (x : String) :
    (∀ shared_secret : List Nat,
      (crypto.derive_session_cipher shared_secret).decrypt ks
        ((crypto.derive_session_cipher shared_secret).encrypt ks x) = .ok x) ∧
    (∀ (shared_secret sha_digest : List Nat) (hkdf1 hkdf2 hkdf3 : List Nat × List Nat),
      ∃ ct, (mtapy.derive_session_cipher shared_secret sha_digest hkdf1 hkdf2
          hkdf3).encrypt ks x = .ok ct ∧
        (mtapy.derive_session_cipher shared_secret sha_digest hkdf1 hkdf2
          hkdf3).decrypt ks ct = .ok x) := by
  have hct : ∀ (key iv : List Nat),
      b64decode (b64encode (ctrCrypt (ks key iv) (utf8Encode x))) =
        some (ctrCrypt (ks key iv) (utf8Encode x)) := by
    intro key iv
    exact b64decode_encode (ctrCrypt (ks key iv) (utf8Encode x)).length _ le_rfl
      (ctrCryptFrom_lt (ks key iv) (hks key iv) 0 (utf8Encode x) (utf8Encode_lt x))
  have hpt : ∀ (key iv : List Nat),
      utf8Decode (ctrCrypt (ks key iv) (ctrCrypt (ks key iv) (utf8Encode x))) = some x := by
    intro key iv
    rw [ctrCrypt_involutive, utf8Decode_encode]
  constructor
  · intro shared_secret
    rw [crypto.DefaultSessionCipher.decrypt, crypto.DefaultSessionCipher.encrypt]
    rw [hct]
    dsimp only
    rw [hpt]
  · intro shared_secret sha_digest hkdf1 hkdf2 hkdf3
    refine ⟨_, rfl, ?_⟩
    rw [mtapy.DefaultSessionCipher.decrypt]
    show (match b64decode (b64encode (ctrCrypt (ks (shared_secret.take 16) AES_IV)
        (utf8Encode x))) with
      | none => Except.error PyError.valueError
      | some ct => mtapy.decryptLoop ks ct (mtapy.derive_session_cipher shared_secret
          sha_digest hkdf1 hkdf2 hkdf3)._candidates) = .ok x
    rw [hct]
    show mtapy.decryptLoop ks _ ((shared_secret.take 16, AES_IV) :: _) = .ok x
    rw [mtapy.decryptLoop]
    rw [hpt]

/-- Witness for C4 with the zero keystream, a concrete secret and digest,
and the string `"psk"`. -/
theorem C4_witness :
    ((crypto.derive_session_cipher [1, 2, 3]).decrypt (fun _ _ _ => 0)
      ((crypto.derive_session_cipher [1, 2, 3]).encrypt (fun _ _ _ => 0) "psk") =
        .ok "psk") ∧
    (∃ ct, (mtapy.derive_session_cipher [1, 2, 3] (List.replicate 32 7) ([], [])
        ([], []) ([], [])).encrypt (fun _ _ _ => 0) "psk" = .ok ct ∧
      (mtapy.derive_session_cipher [1, 2, 3] (List.replicate 32 7) ([], [])
        ([], []) ([], [])).decrypt (fun _ _ _ => 0) ct = .ok "psk") :=
  ⟨(C4_session_cipher_roundtrip (fun _ _ _ => 0) (fun _ _ _ => Nat.succ_pos 255) "psk").1 [1, 2, 3],
    (C4_session_cipher_roundtrip (fun _ _ _ => 0) (fun _ _ _ => Nat.succ_pos 255) "psk").2
      [1, 2, 3] (List.replicate 32 7) ([], []) ([], []) ([], [])⟩
